import Mathlib

/-!
Shallow embedding of the arago optimizer (src/optimizer) and the matrix
kernel intrinsics (src/matrices), with theorems checking the specification
claims against the code.

Conventions of the embedding:
* Rust `usize`/`u32`/`u8` values are modelled as `Nat` (no arithmetic in the
  sources approaches the wrap-around range: times grow by bounded sums).
* Rust `Vec`/`VecDeque` are Lean `List`s; `Vec::pop` takes the last element,
  `VecDeque::pop_front` the head.
* `BTreeMap<u32, _>` is an association list sorted by ascending key;
  `pop_first`/`iter().next()` is the head, `iter().last()` the last element.
* `HashMap`/`HashSet` with `insert`-only usage are insertion-ordered
  association lists.  Where the source iterates a `HashMap` and the result
  depends on the (unspecified) iteration order, the embedding is
  parametrised by an oracle supplying the order.
* Rust index panics / `unwrap` / `assert!` are modelled totally; every such
  site is reachable only outside the hypotheses of the theorems below, and
  is marked with a comment.
-/

namespace Arago

/-- Opcode enum, from src/optimizer/src/operations.rs. -/
inductive Operation where
  | VAdd | VMin | VMax | VScaMul
deriving DecidableEq, Repr

/-- Chip class enum, from src/optimizer/src/operations.rs. -/
inductive ChipType where
  | Opac | Scalar
deriving DecidableEq, Repr

/-- src/optimizer/src/devices.rs: `TRANSFER_TIME`. -/
def TRANSFER_TIME : Nat := 1
/-- src/optimizer/src/devices.rs: `POINTWISE_COST`. -/
def POINTWISE_COST : Nat := 1000
/-- src/optimizer/src/devices.rs: `OPAC_COST`. -/
def OPAC_COST : Nat := 1

/-- `AragoSpec::get_cost` (also mirrored by the per-chip `Chip::cost`). -/
def getCost : Operation → Nat
  | .VAdd | .VMin | .VMax => POINTWISE_COST
  | .VScaMul => OPAC_COST

/-- `AragoSpec::get_core` maps opcodes to a core; its chip class. -/
def chipOf : Operation → ChipType
  | .VAdd | .VMin | .VMax => .Scalar
  | .VScaMul => .Opac

/-! ## DAG (src/optimizer/src/dag.rs)

The Rust code stores nodes as `Rc<RefCell<Node>>` in a vector indexed by id;
we keep the per-node data as lists indexed by id.  `usersL`/`sourcesL` are
the forward/back edge lists; `inputs` is the stored list of nodes with no
incoming edge, in ascending id order (as the `(0..len).filter(..)` in
`Dag::new` produces it). -/

structure Dag where
  ops : List (Option Operation)
  usersL : List (List Nat)
  sourcesL : List (List Nat)
  inputs : List Nat

def Dag.n (d : Dag) : Nat := d.ops.length

/-- `self.all_nodes[v].users`; out-of-range ids read as `[]` (Rust would panic). -/
def Dag.users (d : Dag) (v : Nat) : List Nat := d.usersL.getD v []

/-- `self.all_nodes[v].sources`. -/
def Dag.sources (d : Dag) (v : Nat) : List Nat := d.sourcesL.getD v []

/-- `self.all_nodes[v].op`. -/
def Dag.op (d : Dag) (v : Nat) : Option Operation := d.ops.getD v none

/-- One `Node::add(source, user)` call: push `to` onto `users(from)` and
`from` onto `sources(to)`. -/
def addEdge (p : List (List Nat) × List (List Nat)) (e : Nat × Nat) :
    List (List Nat) × List (List Nat) :=
  (p.1.set e.1 (p.1.getD e.1 [] ++ [e.2]), p.2.set e.2 (p.2.getD e.2 [] ++ [e.1]))

/-- `Dag::new`: build edge lists in edge order; `inputs` are the ids that
never occur as an edge target. -/
def dagNew (ops : List (Option Operation)) (edges : List (Nat × Nat)) : Dag :=
  let n := ops.length
  let start : List (List Nat) := List.replicate n []
  let built := edges.foldl addEdge (start, start)
  { ops := ops
    usersL := built.1
    sourcesL := built.2
    inputs := (List.range n).filter (fun i => !(edges.any (fun e => e.2 == i))) }

/-! ### `Dag::top_sort` (Kahn layering) -/

/-- Increment a counter function at one index. -/
def bump (f : Nat → Nat) (u : Nat) : Nat → Nat :=
  fun w => if w = u then f u + 1 else f w

/-- Process the users of one retiring/processed node: bump each user's
`done` counter and emit the user when the counter reaches its in-degree.
This is the body `for user_id in users { done += 1; if done == |sources| }`
shared by `top_sort` and (in bucketed form) `efficient_sort`. -/
def bumpUsers (d : Dag) (v : Nat) (st : List Nat × (Nat → Nat)) :
    List Nat × (Nat → Nat) :=
  (d.users v).foldl
    (fun st u =>
      let dn := bump st.2 u
      if dn u = (d.sources u).length then (st.1 ++ [u], dn) else (st.1, dn))
    st

/-- One `top_sort` iteration: process every id of the frontier. -/
def processFrontier (d : Dag) (free : List Nat) (dn : Nat → Nat) :
    List Nat × (Nat → Nat) :=
  free.foldl (fun st v => bumpUsers d v st) ([], dn)

/-- The `while !free.is_empty()` loop of `top_sort`, with fuel (the Rust
loop relies on the graph being finite; `d.n + 1` iterations always suffice,
which the correctness proof establishes). -/
def topSortLoop (d : Dag) : List Nat → (Nat → Nat) → Nat → List (List Nat)
  | _, _, 0 => []
  | free, dn, fuel + 1 =>
    if free.isEmpty then []
    else
      let st := processFrontier d free dn
      free :: topSortLoop d st.1 st.2 fuel

/-- `Dag::top_sort`. -/
def topSort (d : Dag) : List (List Nat) :=
  topSortLoop d d.inputs (fun _ => 0) (d.n + 1)

/-! ### `Dag::get_costs`

`finish_nodes : BTreeMap<u32, VecDeque<Id>>` is a sorted association list;
only node ids are stored (the Rust code stores `Rc` node handles). -/

/-- `finish_nodes.entry(k).or_insert(..).push_back(v)` on the sorted list. -/
def bInsert (m : List (Nat × List Nat)) (k : Nat) (v : Nat) :
    List (Nat × List Nat) :=
  match m with
  | [] => [(k, [v])]
  | (k0, l0) :: rest =>
    if k < k0 then (k, [v]) :: (k0, l0) :: rest
    else if k = k0 then (k0, l0 ++ [v]) :: rest
    else (k0, l0) :: bInsert rest k v

/-- The `while !finish_nodes.is_empty()` loop of `get_costs`.  Each
iteration pops the front of the smallest-key bucket (removing the bucket
when it empties), skips visited ids, otherwise writes
`res[id] = key (+ cost)` and pushes the id's sources at the new key. -/
def getCostsLoop (d : Dag) :
    Nat → List (Nat × List Nat) → List Nat → List Nat → List Nat
  | 0, _, _, res => res
  | _ + 1, [], _, res => res
  | fuel + 1, (t, bucket) :: restFn, visited, res =>
    match bucket with
    | [] => getCostsLoop d fuel restFn visited res -- unreachable: buckets stay nonempty
    | nid :: brest =>
      let fn2 := if brest.isEmpty then restFn else (t, brest) :: restFn
      if nid ∈ visited then getCostsLoop d fuel fn2 visited res
      else
        let newCost :=
          match d.op nid with
          | some op => t + getCost op
          | none => t
        -- Rust: assert!(res[id] <= new_cost); res[id] = new_cost
        let res2 := res.set nid newCost
        let fn3 := (d.sources nid).foldl (fun m s => bInsert m newCost s) fn2
        getCostsLoop d fuel fn3 (visited ++ [nid]) res2

/-- `Dag::get_costs`: Dijkstra-style sweep from the sink nodes.  Fuel
`n + Σ|sources| + 1` covers every possible queue insertion. -/
def getCosts (d : Dag) : List Nat :=
  let sinks := (List.range d.n).filter (fun i => d.users i = [])
  let fuel := d.n + d.sourcesL.foldl (fun a l => a + l.length) 0 + 1
  getCostsLoop d fuel [(0, sinks)] [] (List.replicate d.n 0)

/-! ## Device model (src/optimizer/src/devices.rs)

Registers (`Register(u8)`) are modelled as `Nat`.  `active_memory`
(id → register), `registers` (register → id) and `done_tasks` are
insertion-ordered association lists / lists; the source only ever inserts
into them.  Each `Core`'s `active` FIFO is a list of `(id, completion)`
pairs; `max_cores() = 1` for both chips. -/

structure AragoSpec where
  matQ : List (Nat × Nat)
  scaQ : List (Nat × Nat)
  activeMemory : List (Nat × Nat)
  registers : List (Nat × Nat)
  doneTasks : List Nat
  lastTask : Option Nat
  time : Nat

/-- `AragoSpec::default`. -/
def AragoSpec.start : AragoSpec :=
  { matQ := [], scaQ := [], activeMemory := [], registers := []
    doneTasks := [], lastTask := none, time := 0 }

/-- `HashMap` lookup on the association-list model. -/
def lookupA (m : List (Nat × Nat)) (k : Nat) : Option Nat :=
  match m.find? (fun p => p.1 == k) with
  | some p => some p.2
  | none => none

/-- `HashMap::insert`: replace an existing binding or append a new one. -/
def insertA (m : List (Nat × Nat)) (k v : Nat) : List (Nat × Nat) :=
  if m.any (fun p => p.1 == k) then
    m.map (fun p => if p.1 == k then (k, v) else p)
  else m ++ [(k, v)]

/-- `HashSet::insert`. -/
def insertS (s : List Nat) (x : Nat) : List Nat :=
  if x ∈ s then s else s ++ [x]

/-- `AragoSpec::store_memory`: bind id → reg and reg → id. -/
def AragoSpec.storeMemory (d : AragoSpec) (id reg : Nat) : AragoSpec :=
  { d with activeMemory := insertA d.activeMemory id reg
           registers := insertA d.registers reg id }

/-- `AragoSpec::update_time`: clock only moves forward. -/
def AragoSpec.updateTime (d : AragoSpec) (t : Nat) : AragoSpec :=
  { d with time := max t d.time }

/-- `AragoSpec::to_device`. -/
def AragoSpec.toDevice (d : AragoSpec) (id reg : Nat) : AragoSpec :=
  let d := { d with time := d.time + TRANSFER_TIME }
  let d := { d with doneTasks := insertS d.doneTasks id }
  d.storeMemory id reg

/-- The per-chip core queue of the device. -/
def AragoSpec.coreQ (d : AragoSpec) : ChipType → List (Nat × Nat)
  | .Opac => d.matQ
  | .Scalar => d.scaQ

def AragoSpec.setCoreQ (d : AragoSpec) : ChipType → List (Nat × Nat) → AragoSpec
  | .Opac, q => { d with matQ := q }
  | .Scalar, q => { d with scaQ := q }

/-- `Core::add`: when the core is full (one in-flight task) pop its head and
stamp the new task with the head's completion time plus the cost; when it is
free use the caller-supplied time.  Returns the popped head, if any. -/
def coreAdd (q : List (Nat × Nat)) (cost id time : Nat) :
    Option (Nat × Nat) × List (Nat × Nat) :=
  match q with
  | [] => (none, [(id, time + cost)])
  | h :: t => (some h, t ++ [(id, h.2 + cost)])

/-- The `assert!(active_memory.contains_key(input))` precondition of
`AragoSpec::schedule`. -/
def scheduleOk (d : AragoSpec) (inputs : List Nat) : Bool :=
  inputs.all (fun i => (lookupA d.activeMemory i).isSome)

/-- `AragoSpec::schedule` (state change; the input assertion is
`scheduleOk`, the Rust code panics when it fails).  The source sets
`last_task`, snapshots `time`, calls `Core::add`, stores the result
binding, and on a popped task syncs the clock and marks it done. -/
def AragoSpec.schedule (d : AragoSpec) (op : Operation) (id reg : Nat) :
    AragoSpec :=
  match coreAdd (({ d with lastTask := some id }).coreQ (chipOf op)) (getCost op) id d.time with
  | (none, q) =>
    (({ d with lastTask := some id }).setCoreQ (chipOf op) q).storeMemory id reg
  | (some p, q) =>
    let d2 := ((({ d with lastTask := some id }).setCoreQ (chipOf op) q).storeMemory
      id reg).updateTime p.2
    { d2 with doneTasks := insertS d2.doneTasks p.1 }

/-- The core chosen by `AragoSpec::step`: the in-flight head with the
smaller completion time; the scalar core when the two heads tie
(`t1 < t2` strict). -/
def AragoSpec.stepChoice (d : AragoSpec) : Option ChipType :=
  match d.matQ, d.scaQ with
  | [], [] => none
  | _ :: _, [] => some .Opac
  | [], _ :: _ => some .Scalar
  | (_, t1) :: _, (_, t2) :: _ =>
    if t1 < t2 then some .Opac else some .Scalar

/-- Pop the head of one core, advance the clock to its completion time and
mark it done (the tail of `AragoSpec::step`). -/
def AragoSpec.popCore (d : AragoSpec) (c : ChipType) : Option (Nat × AragoSpec) :=
  match d.coreQ c with
  | [] => none
  | (id, t) :: r =>
    let d := d.setCoreQ c r
    let d := d.updateTime t
    some (id, { d with doneTasks := insertS d.doneTasks id })

/-- `AragoSpec::step`. -/
def AragoSpec.step (d : AragoSpec) : Option (Nat × AragoSpec) :=
  match d.stepChoice with
  | none => none
  | some c => d.popCore c

/-- The drain loop of `elapsed_time`; each step removes one queued task, so
the combined queue length is exact fuel. -/
def AragoSpec.drain (d : AragoSpec) : Nat → AragoSpec
  | 0 => d
  | fuel + 1 =>
    match d.step with
    | none => d
    | some p => p.2.drain fuel

/-- `AragoSpec::elapsed_time`, returning the drained device as well. -/
def AragoSpec.elapsedDevice (d : AragoSpec) : AragoSpec :=
  d.drain (d.matQ.length + d.scaQ.length)

def AragoSpec.elapsedTime (d : AragoSpec) : Nat := d.elapsedDevice.time

/-- Observer for the drain order: the `(chip, id, completion)` triples in
the order `step` retires them (same selection logic as
`stepChoice`/`step`: smaller completion first, scalar on ties). -/
def AragoSpec.drainTrace (d : AragoSpec) : Nat → List (ChipType × Nat × Nat)
  | 0 => []
  | fuel + 1 =>
    match d.matQ, d.scaQ with
    | [], [] => []
    | (i1, t1) :: _, [] =>
      match d.popCore ChipType.Opac with
      | some p => (ChipType.Opac, i1, t1) :: p.2.drainTrace fuel
      | none => []
    | [], (i2, t2) :: _ =>
      match d.popCore ChipType.Scalar with
      | some p => (ChipType.Scalar, i2, t2) :: p.2.drainTrace fuel
      | none => []
    | (i1, t1) :: _, (i2, t2) :: _ =>
      if t1 < t2 then
        match d.popCore ChipType.Opac with
        | some p => (ChipType.Opac, i1, t1) :: p.2.drainTrace fuel
        | none => []
      else
        match d.popCore ChipType.Scalar with
        | some p => (ChipType.Scalar, i2, t2) :: p.2.drainTrace fuel
        | none => []

/-- `AragoSpec::reg_stat`: 16 registers on each chip. -/
def regStat : ChipType → Nat := fun _ => 16

/-! ## Instructions and register allocation (src/optimizer/src/regalloc.rs) -/

/-- `Instruction { id, res_reg, pre_move }`. -/
structure Instruction where
  id : Nat
  resReg : Nat
  preMove : List (Nat × Nat)

/-- Register-allocator state: free registers (a `Vec` popped from the
back) and the per-chip id → register map, kept in insertion order. -/
structure RegAlloc where
  freeOpac : List Nat
  freeScalar : List Nat
  memOpac : List (Nat × Nat)
  memScalar : List (Nat × Nat)

def RegAlloc.getFree (ra : RegAlloc) : ChipType → List Nat
  | .Opac => ra.freeOpac
  | .Scalar => ra.freeScalar

def RegAlloc.setFree (ra : RegAlloc) : ChipType → List Nat → RegAlloc
  | .Opac, l => { ra with freeOpac := l }
  | .Scalar, l => { ra with freeScalar := l }

def RegAlloc.getMem (ra : RegAlloc) : ChipType → List (Nat × Nat)
  | .Opac => ra.memOpac
  | .Scalar => ra.memScalar

def RegAlloc.setMem (ra : RegAlloc) : ChipType → List (Nat × Nat) → RegAlloc
  | .Opac, l => { ra with memOpac := l }
  | .Scalar, l => { ra with memScalar := l }

/-- `RegAlloc::new` with `reg_stat()`: 16 registers per chip,
`(0..16).map(Register::new).collect()`. -/
def regAllocNew : RegAlloc :=
  { freeOpac := List.range (regStat .Opac)
    freeScalar := List.range (regStat .Scalar)
    memOpac := [], memScalar := [] }

/-- `VecDeque<usize>::cmp`: lexicographic; the empty queue is the least. -/
def lexCmp : List Nat → List Nat → Ordering
  | [], [] => .eq
  | [], _ :: _ => .lt
  | _ :: _, [] => .gt
  | a :: xs, b :: ys =>
    if a < b then .lt else if b < a then .gt else lexCmp xs ys

/-- `Iterator::max_by` over the resident map: keeps the later element when
the comparison is not `Greater`, so the last maximal element wins. -/
def maxByRust (users : Nat → List Nat) (mem : List (Nat × Nat)) :
    Option (Nat × Nat) :=
  mem.foldl
    (fun best p =>
      match best with
      | none => some p
      | some b => if lexCmp (users b.1) (users p.1) = .gt then some b else some p)
    none

/-- `RegAlloc::alloc_reg`: pop a free register, or evict the resident whose
remaining-uses queue compares greatest (`max_by` over the chip's map) and
reuse its register.  Returns the register and the new state.  (The `None`
eviction branch is unreachable when the chip has at least one register;
Rust would panic on `unwrap`.) -/
def RegAlloc.allocReg (ra : RegAlloc) (c : ChipType) (users : Nat → List Nat) :
    Nat × RegAlloc :=
  let free := ra.getFree c
  if free.isEmpty then
    match maxByRust users (ra.getMem c) with
    | some p =>
      (p.2, ra.setMem c ((ra.getMem c).filter (fun q => q.1 ≠ p.1)))
    | none => (0, ra)
  else
    (free.getLastD 0, ra.setFree c free.dropLast)

/-- `RegAlloc::sync_memory`: for ids resident on either chip, pop expired
use-sites (`< step`) from the front of their queue. -/
def RegAlloc.syncMemory (ra : RegAlloc) (users : Nat → List Nat) (i : Nat) :
    Nat → List Nat :=
  fun id =>
    if (ra.memOpac.any (fun p => p.1 == id)) ||
        (ra.memScalar.any (fun p => p.1 == id)) then
      (users id).dropWhile (fun x => x < i)
    else users id

/-- The body of `RegAlloc::regalloc`, one step per order entry.  `i` is the
step index; `users` is threaded because `sync_memory` mutates it. -/
def regallocGo (inputs : Nat → List Nat) :
    RegAlloc → (Nat → List Nat) → Nat → List (Nat × Option ChipType) →
    List Instruction
  | _, _, _, [] => []
  | ra, users, i, (inst, chip) :: rest =>
    let users := ra.syncMemory users i
    match chip with
    | none =>
      -- input node: assert!(inputs[inst].is_empty())
      let al := ra.allocReg .Scalar users
      let ra := al.2.setMem .Scalar (al.2.getMem .Scalar ++ [(inst, al.1)])
      ⟨inst, al.1, []⟩ :: regallocGo inputs ra users (i + 1) rest
    | some c =>
      let st :=
        (inputs inst).foldl
          (fun (st : List (Nat × Nat) × RegAlloc) id =>
            if (st.2.getMem c).any (fun p => p.1 == id) then st
            else
              let al := st.2.allocReg c users
              let ra2 := al.2.setMem c (al.2.getMem c ++ [(id, al.1)])
              (st.1 ++ [(id, al.1)], ra2))
          ([], ra)
      let al := st.2.allocReg c users
      let ra := al.2.setMem c (al.2.getMem c ++ [(inst, al.1)])
      ⟨inst, al.1, st.1⟩ :: regallocGo inputs ra users (i + 1) rest

/-- `RegAlloc::regalloc`. -/
def regallocRun (order : List (Nat × Option ChipType)) (inputs : Nat → List Nat)
    (users : Nat → List Nat) : List Instruction :=
  regallocGo inputs regAllocNew users 0 order

/-! ### `Dag::efficient_sort` (dag.rs)

The heuristic replica device only uses the two core queues.  The
`free : HashMap<Operation, BTreeMap<u32, Vec<Id>>>` map is modelled as a
function from opcodes to sorted bucket lists plus the list of keys that
have been inserted (a `HashMap` stays nonempty once a key is added, even if
its bucket map empties).  `HashMap` iteration order is unspecified in Rust,
so the dispatch scan is parametrised by an oracle giving the key order for
each loop iteration; `canonOps` completes an oracle value to a permutation
of all four opcodes. -/

structure ESState where
  res : List Nat
  cycles : Nat
  active : List (Nat × List Nat)
  matQ : List (Nat × Nat)
  scaQ : List (Nat × Nat)
  free : Operation → List (Nat × List Nat)
  freeKeys : List Operation
  done : Nat → Nat

def ESState.coreQ (st : ESState) : ChipType → List (Nat × Nat)
  | .Opac => st.matQ
  | .Scalar => st.scaQ

def ESState.setCoreQ (st : ESState) : ChipType → List (Nat × Nat) → ESState
  | .Opac, q => { st with matQ := q }
  | .Scalar, q => { st with scaQ := q }

/-- `Core::update_time`: drop finished tasks (completion ≤ time) from the
front of the queue. -/
def coreUpdate (q : List (Nat × Nat)) (t : Nat) : List (Nat × Nat) :=
  q.dropWhile (fun p => p.2 ≤ t)

/-- Every possible `HashMap` iteration order is some permutation of the
four opcodes; complete an arbitrary oracle value into one. -/
def canonOps (l : List Operation) : List Operation :=
  (l ++ [Operation.VAdd, Operation.VMin, Operation.VMax, Operation.VScaMul]).foldl
    (fun acc op => if op ∈ acc then acc else acc ++ [op]) []

/-- `v.pop(); if v.is_empty() { nodes.pop_last(); }` on the largest-key
bucket of a sorted bucket list. -/
def popLastBucket (nodes : List (Nat × List Nat)) : List (Nat × List Nat) :=
  match nodes.getLast? with
  | none => nodes
  | some (k, v) =>
    let v2 := v.dropLast
    if v2.isEmpty then nodes.dropLast else nodes.dropLast ++ [(k, v2)]

def updateFree (f : Operation → List (Nat × List Nat)) (op : Operation)
    (l : List (Nat × List Nat)) : Operation → List (Nat × List Nat) :=
  fun o => if o = op then l else f o

/-- The dispatch scan `for (op, nodes) in &mut free`: skip empty buckets,
sync the op's core to `cycles`, take the last id of the largest-cost
bucket, and dispatch it if the core has capacity (`try_add`); stop at the
first success.  Failed `try_add`s leave the core sync in place and move on.
The slot taken from the bucket vec is its last element (`v.last()`);
`getLastD 0` stands for the `unwrap` (bucket vecs are never empty). -/
def dispatchGo (costs : List Nat) : ESState → List Operation → Option Nat × ESState
  | st, [] => (none, st)
  | st, op :: rest =>
    if op ∈ st.freeKeys then
      let nodes := st.free op
      if nodes.isEmpty then dispatchGo costs st rest
      else
        let c := chipOf op
        let st := st.setCoreQ c (coreUpdate (st.coreQ c) st.cycles)
        match nodes.getLast? with
        | none => dispatchGo costs st rest
        | some (_w, v) =>
          let taskId := v.getLastD 0
          match st.coreQ c with
          | [] =>
            -- try_add succeeds: the task starts at `cycles`
            let st := st.setCoreQ c [(taskId, st.cycles + getCost op)]
            let st :=
              { st with
                active := bInsert st.active (st.cycles + getCost op) taskId
                res := st.res ++ [taskId]
                free := updateFree st.free op (popLastBucket nodes) }
            (some taskId, st)
          | _ :: _ => dispatchGo costs st rest
    else dispatchGo costs st rest

/-- Retiring one task: bump each user's arrival counter and, when it
reaches the user's in-degree, enqueue the user in its opcode's bucket at
key `costs[user]`.  (`(d.op user).getD .VAdd` models the `unwrap`: a user
always has an opcode in a well-formed DAG.) -/
def retireTask (d : Dag) (costs : List Nat) (st : ESState) (task : Nat) : ESState :=
  (d.users task).foldl
    (fun st user =>
      let dn := bump st.done user
      let st := { st with done := dn }
      if dn user = (d.sources user).length then
        let op := (d.op user).getD .VAdd
        { st with
          free := updateFree st.free op (bInsert (st.free op) (costs.getD user 0) user)
          freeKeys := if op ∈ st.freeKeys then st.freeKeys else st.freeKeys ++ [op] }
      else st)
    st

/-- The main `while !active.is_empty() || !free.is_empty()` loop: try to
dispatch one task; otherwise pop the earliest completion bucket of
`active`, advance `cycles`, and retire its tasks (breaking when `active`
is empty).  Fuel `2n + 2` always suffices (each iteration either extends
`res` or shrinks `active`; the proofs establish this). -/
def esLoop (d : Dag) (costs : List Nat) (oracle : Nat → List Operation) :
    Nat → ESState → Nat → List Nat
  | _, st, 0 => st.res
  | iter, st, fuel + 1 =>
    if st.active.isEmpty && st.freeKeys.isEmpty then st.res
    else
      let dp := dispatchGo costs st (canonOps (oracle iter))
      match dp.1 with
      | some _ => esLoop d costs oracle (iter + 1) dp.2 fuel
      | none =>
        match dp.2.active with
        | [] => dp.2.res
        | (top, tasks) :: restA =>
          let st := { dp.2 with active := restA, cycles := max top dp.2.cycles }
          let st := tasks.foldl (retireTask d costs) st
          esLoop d costs oracle (iter + 1) st fuel

/-- `Dag::efficient_sort`, parametrised by the `HashMap` iteration-order
oracle.  Inputs are emitted immediately and all placed in `active[0]`. -/
def efficientSort (oracle : Nat → List Operation) (d : Dag) : List Nat :=
  let costs := getCosts d
  let st0 : ESState :=
    { res := d.inputs
      cycles := 0
      active := if d.inputs.isEmpty then [] else [(0, d.inputs)]
      matQ := [], scaQ := []
      free := fun _ => [], freeKeys := []
      done := fun _ => 0 }
  esLoop d costs oracle 0 st0 (2 * d.n + 2)

/-! ## Scheduler (src/optimizer/src/scheduler.rs) -/

/-- `Scheduler::exec_time`, returning the final device: replay pre-moves
with `to_device`, dispatch op nodes with `schedule` (input nodes with
`to_device`), then drain with `elapsed_time`. -/
def execDevice (d : Dag) (moves : List Instruction) (dev : AragoSpec) : AragoSpec :=
  let dev :=
    moves.foldl
      (fun dev inst =>
        let dev := inst.preMove.foldl (fun dv p => dv.toDevice p.1 p.2) dev
        match d.op inst.id with
        | some x => dev.schedule x inst.id inst.resReg
        | none => dev.toDevice inst.id inst.resReg)
      dev
  dev.elapsedDevice

def execTime (d : Dag) (moves : List Instruction) (dev : AragoSpec) : Nat :=
  (execDevice d moves dev).time

/-- `Scheduler::baseline_execute`'s instruction list: move every source to
register `0..k` before each instruction, bind the result to register `k`
(`k` = number of sources). -/
def baselineMoves (d : Dag) (order : List Nat) : List Instruction :=
  order.map (fun id =>
    let srcs := d.sources id
    Instruction.mk id srcs.length (srcs.zip (List.range srcs.length)))

/-- `Scheduler::baseline_execute`: flatten the layered sort and replay the
always-move instruction list. -/
def baselineExecute (d : Dag) : Nat × List Nat :=
  let order := (topSort d).flatten
  (execTime d (baselineMoves d order) AragoSpec.start, order)

/-- `Scheduler::optimal_execute`, parametrised by the `efficient_sort`
iteration-order oracle: efficient order, chip annotations, use-position
queues, register allocation, replay. -/
def optimalExecute (oracle : Nat → List Operation) (d : Dag) : Nat × List Nat :=
  let order := efficientSort oracle d
  let chipOrder := order.map (fun id => (id, (d.op id).map chipOf))
  let usersMap : Nat → List Nat :=
    fun id => (d.users id).map (fun u => order.indexOf u)
  let moves := regallocRun chipOrder (fun id => d.sources id) usersMap
  (execTime d moves AragoSpec.start, order)

/-! ## Replayed device operations

`to_device`, `schedule` and `elapsed_time` are the three mutating entry
points of the device; an instruction replay is a sequence of such calls. -/

inductive DeviceOp where
  | toDev (id reg : Nat)
  | sched (op : Operation) (id reg : Nat)
  | elapse

def applyOp (d : AragoSpec) : DeviceOp → AragoSpec
  | .toDev id reg => d.toDevice id reg
  | .sched op id reg => d.schedule op id reg
  | .elapse => d.elapsedDevice

def replayOps : AragoSpec → List DeviceOp → AragoSpec
  | d, [] => d
  | d, o :: rest => replayOps (applyOp d o) rest

/-- id is bound in device memory (`active_memory.contains_key`). -/
def memHas (d : AragoSpec) (id : Nat) : Bool := (lookupA d.activeMemory id).isSome

/-- register occurs in the `registers` map. -/
def regHas (d : AragoSpec) (reg : Nat) : Bool := (lookupA d.registers reg).isSome

/-- The inverse-maps property claimed for the device's two binding maps:
every binding `id → reg` is mirrored by `reg → id` and conversely. -/
def inverseMaps (d : AragoSpec) : Bool :=
  d.activeMemory.all (fun p => lookupA d.registers p.2 == some p.1) &&
  d.registers.all (fun p => lookupA d.activeMemory p.2 == some p.1)

/-! ## Matrix kernel intrinsics (src/matrices/src/intrinsics/intrinsics.rs)

`ChipT = i8` is modelled as `Int`; `DIMENSION` comes from the crate's
config module (not under src/), so it is kept as a parameter `dim`.  An
`Array1D` holds a `[ChipT; DIMENSION]` buffer and a size. -/

structure Array1D where
  data : List Int
  sz : Nat

/-- `v_min`: result buffer zero-initialised to length `dim`, then
`res[i] = max(a_i, b_i)` for each position of `zip(a.data, b.data)` —
the source computes `max`, not `min`. -/
def vMin (dim : Nat) (a b : Array1D) : Array1D :=
  let zipped := a.data.zip b.data
  ⟨(zipped.zip (List.range zipped.length)).foldl
      (fun r q => r.set q.2 (max q.1.1 q.1.2)) (List.replicate dim 0), dim⟩

/-- `v_max`: `res[i] = max(a_i, b_i)` over the zip. -/
def vMax (dim : Nat) (a b : Array1D) : Array1D :=
  let zipped := a.data.zip b.data
  ⟨(zipped.zip (List.range zipped.length)).foldl
      (fun r q => r.set q.2 (max q.1.1 q.1.2)) (List.replicate dim 0), dim⟩

/-! ## Spec-modelled definitions (for refinement comparisons only) -/

/-- Modelled from the spec: claim C3's comparison on remaining-use queues,
"lexicographic on the remaining future use-indices and an empty queue is
treated as the maximum".  Compare with the source's `lexCmp`, where the
empty queue is the least. -/
def specCmpEmptyMax : List Nat → List Nat → Ordering
  | [], [] => .eq
  | [], _ :: _ => .gt
  | _ :: _, [] => .lt
  | a :: xs, b :: ys =>
    if a < b then .lt else if b < a then .gt else specCmpEmptyMax xs ys

/-! ## Concrete instances used by counterexamples and witnesses -/

/-- Claim C6's scenario: N=2, node 0 = input, node 1 = VScaMul, edge (0,1). -/
def c6dag : Dag := dagNew [none, some Operation.VScaMul] [(0, 1)]

/-- A 4-node DAG refuting the longest-path reading of `get_costs`:
input 0 feeds the VScaMul sink 1 and the VScaMul 2; 2 feeds the VAdd
sink 3.  The longest path from 0 goes through 2 and 3 (cost 1001). -/
def c2dag : Dag :=
  dagNew [none, some Operation.VScaMul, some Operation.VScaMul, some Operation.VAdd]
    [(0, 1), (0, 2), (2, 3)]

/-- A 6-node DAG for claim C4: inputs 0–3 all feed the VScaMul 4, input 0
also feeds the VAdd 5. -/
def c4dag : Dag :=
  dagNew [none, none, none, none, some Operation.VScaMul, some Operation.VAdd]
    [(0, 4), (1, 4), (2, 4), (3, 4), (0, 5)]

/-- `HashMap` iteration order putting VScaMul first. -/
def oracleMatFirst : Nat → List Operation := fun _ => [Operation.VScaMul, Operation.VAdd]

/-- `HashMap` iteration order putting VAdd first. -/
def oracleScaFirst : Nat → List Operation := fun _ => [Operation.VAdd, Operation.VScaMul]

/-- Two opcode-less input nodes — the smallest DAG whose baseline replay
breaks the inverse-maps property (both inputs are bound to register 0). -/
def c7dag : Dag := dagNew [none, none] []

/-- A device with the matrix head and the scalar head completing at the
same time 5. -/
def tieDevice : AragoSpec := { AragoSpec.start with matQ := [(1, 5)], scaQ := [(2, 5)] }

/-- An allocator state for claim C3: no free Opac registers; resident id 5
has no remaining uses, resident id 7 is used again at step 20. -/
def raC3 : RegAlloc :=
  { freeOpac := [], freeScalar := [], memOpac := [(5, 0), (7, 1)], memScalar := [] }

def usersC3 : Nat → List Nat := fun i => if i = 7 then [20] else []

/-- An allocator state for the C3 witness: both residents still used. -/
def raC3w : RegAlloc :=
  { freeOpac := [], freeScalar := [], memOpac := [(3, 0), (9, 1)], memScalar := [] }

def usersC3w : Nat → List Nat := fun i => if i = 3 then [2] else if i = 9 then [7] else []

/-! ## Verification predicates for the order claims -/

/-- The ids stored in a bucket list (`BTreeMap<u32, Vec<Id>>` values). -/
def bucketIds (bs : List (Nat × List Nat)) : List Nat := (bs.map Prod.snd).flatten

/-- All ids sitting in the `free` buckets of the heuristic state. -/
def ESState.freeIds (st : ESState) : List Nat :=
  bucketIds (st.free Operation.VAdd) ++ bucketIds (st.free Operation.VMin) ++
    bucketIds (st.free Operation.VMax) ++ bucketIds (st.free Operation.VScaMul)

/-- Well-formedness of a DAG as the claims assume it: in-range consistent
edge lists (with matching multiplicities), `inputs` = the source-less ids
in ascending order, opcode-less nodes with in-degree 0, and a rank
function witnessing acyclicity. -/
def DagOk (d : Dag) (rank : Nat → Nat) : Prop :=
  d.usersL.length = d.n ∧
  d.sourcesL.length = d.n ∧
  (∀ u ∈ List.range d.n, ∀ v ∈ List.range d.n,
    (d.users v).count u = (d.sources u).count v) ∧
  (∀ v ∈ List.range d.n, ∀ u ∈ d.users v, u < d.n) ∧
  (∀ u ∈ List.range d.n, ∀ v ∈ d.sources u, v < d.n) ∧
  d.inputs = (List.range d.n).filter (fun u => (d.sources u).isEmpty) ∧
  (∀ u ∈ List.range d.n, d.op u = none → d.sources u = []) ∧
  (∀ v ∈ List.range d.n, ∀ u ∈ d.users v, rank v < rank u)

/-- Invariant of `top_sort` between frontier steps: `emitted` holds the
finished layers in emission order, `free` the current frontier, `dn` the
arrival counters. -/
def KahnInv (d : Dag) (emitted free : List Nat) (dn : Nat → Nat) : Prop :=
  (∀ u, dn u = ((d.sources u).filter (fun v => decide (v ∈ emitted))).length) ∧
  (emitted ++ free).Nodup ∧
  (∀ u, u ∈ emitted ++ free ↔ (u < d.n ∧ ∀ v ∈ d.sources u, v ∈ emitted)) ∧
  (∀ p s u, emitted = p ++ u :: s → ∀ v ∈ d.sources u, v ∈ p)

/-- Invariant of the `efficient_sort` loop.  `ret` are the retired tasks
(whose users have been counted); `pending` are tasks popped from `active`
but not yet retired (nonempty only inside the retire phase). -/
def ESInv (d : Dag) (st : ESState) (ret pending : List Nat) : Prop :=
  (∀ u, st.done u = ((d.sources u).filter (fun v => decide (v ∈ ret))).length) ∧
  (st.res ++ st.freeIds).Nodup ∧
  (∀ u, u ∈ st.res ++ st.freeIds ↔ (u < d.n ∧ ∀ v ∈ d.sources u, v ∈ ret)) ∧
  (∀ p s u, st.res = p ++ u :: s → ∀ v ∈ d.sources u, v ∈ p) ∧
  (ret ++ pending ++ bucketIds st.active).Perm st.res ∧
  (∀ p : Nat × Nat, p ∈ st.matQ ++ st.scaQ →
    p.2 ∈ st.active.map Prod.fst ∨ p.2 ≤ st.cycles) ∧
  (∀ op : Operation, ∀ b ∈ st.free op, b.2 ≠ []) ∧
  (∀ op : Operation, st.free op ≠ [] → op ∈ st.freeKeys)

/-! # Theorems -/

/-! ## Helper lemmas: the element-wise write loop of `v_min`/`v_max` -/

theorem foldl_set_shift (f : Int × Int → Int) :
    ∀ (l : List (Int × Int)) (k : Nat) (x : Int) (rs : List Int),
      (l.zip (List.range' (k + 1) l.length)).foldl
          (fun r q => r.set q.2 (f q.1)) (x :: rs)
        = x :: (l.zip (List.range' k l.length)).foldl
            (fun r q => r.set q.2 (f q.1)) rs := by
  intro l
  induction l with
  | nil => intro k x rs; rfl
  | cons p ps ih =>
    intro k x rs
    simp only [List.length_cons, List.range', List.zip_cons_cons, List.foldl_cons]
    have hset : (x :: rs).set (k + 1) (f p) = x :: rs.set k (f p) := rfl
    rw [hset, ih]

theorem foldl_set_fill (f : Int × Int → Int) :
    ∀ (l : List (Int × Int)) (res : List Int), l.length ≤ res.length →
      (l.zip (List.range' 0 l.length)).foldl
          (fun r q => r.set q.2 (f q.1)) res
        = l.map f ++ res.drop l.length := by
  intro l
  induction l with
  | nil => intro res _; simp
  | cons p ps ih =>
    intro res hlen
    match res with
    | [] => simp at hlen
    | r :: rs =>
      simp only [List.length_cons, List.range', List.zip_cons_cons, List.foldl_cons]
      have hset : (r :: rs).set 0 (f p) = f p :: rs := rfl
      rw [hset, foldl_set_shift, ih]
      · simp
      · simpa using hlen

theorem map_zip_eq_zipWith (f : Int → Int → Int) :
    ∀ (a b : List Int), (a.zip b).map (fun p => f p.1 p.2) = List.zipWith f a b := by
  intro a
  induction a with
  | nil => intro b; rfl
  | cons x xs ih =>
    intro b
    cases b with
    | nil => rfl
    | cons y ys => simp [ih]

/-- C10: in the matrix kernel, `v_min` computes the componentwise maximum:
it returns exactly the same values as `v_max`, and on full-length inputs
the data is the elementwise `max` of the two inputs. -/
theorem c10_vmin_is_max (dim : Nat) (a b : Array1D)
    (ha : a.data.length = dim) (hb : b.data.length = dim) :
    vMin dim a b = vMax dim a b ∧
      (vMin dim a b).data = List.zipWith max a.data b.data := by
  constructor
  · rfl
  · show ((a.data.zip b.data).zip (List.range (a.data.zip b.data).length)).foldl
        (fun r q => r.set q.2 (max q.1.1 q.1.2)) (List.replicate dim 0)
      = List.zipWith max a.data b.data
    have hlen : (a.data.zip b.data).length = dim := by
      simp [List.length_zip, ha, hb]
    rw [List.range_eq_range', foldl_set_fill (fun p => max p.1 p.2)]
    · rw [hlen, List.drop_replicate]
      simp [map_zip_eq_zipWith]
    · simp [hlen]

/-- C10 witness at concrete vectors. -/
theorem c10_vmin_is_max_witness :
    vMin 2 ⟨[1, -3], 2⟩ ⟨[0, 5], 2⟩ = vMax 2 ⟨[1, -3], 2⟩ ⟨[0, 5], 2⟩ ∧
      (vMin 2 ⟨[1, -3], 2⟩ ⟨[0, 5], 2⟩).data = List.zipWith max [1, -3] [0, 5] :=
  c10_vmin_is_max 2 ⟨[1, -3], 2⟩ ⟨[0, 5], 2⟩ rfl rfl

/-! ## Helper lemmas: device clock monotonicity -/

theorem time_storeMemory (d : AragoSpec) (id reg : Nat) :
    (d.storeMemory id reg).time = d.time := rfl

theorem time_setCoreQ (d : AragoSpec) (c : ChipType) (q : List (Nat × Nat)) :
    (d.setCoreQ c q).time = d.time := by cases c <;> rfl

theorem time_le_updateTime (d : AragoSpec) (t : Nat) :
    d.time ≤ (d.updateTime t).time := le_max_right t d.time

theorem time_toDevice (d : AragoSpec) (id reg : Nat) :
    (d.toDevice id reg).time = d.time + 1 := rfl

theorem time_le_schedule (d : AragoSpec) (op : Operation) (id reg : Nat) :
    d.time ≤ (d.schedule op id reg).time := by
  unfold AragoSpec.schedule
  split
  · rw [time_storeMemory, time_setCoreQ]
  · refine le_trans ?_ (time_le_updateTime _ _)
    rw [time_storeMemory, time_setCoreQ]

theorem time_le_popCore (d : AragoSpec) (c : ChipType) (id : Nat) (d2 : AragoSpec)
    (h : d.popCore c = some (id, d2)) : d.time ≤ d2.time := by
  unfold AragoSpec.popCore at h
  rcases hq : d.coreQ c with _ | ⟨⟨i, t⟩, r⟩
  · rw [hq] at h; exact absurd h (by simp)
  · rw [hq] at h
    simp only [Option.some.injEq, Prod.mk.injEq] at h
    rcases h with ⟨_, h2⟩
    subst h2
    show d.time ≤ (((d.setCoreQ c r).updateTime t)).time
    calc d.time = (d.setCoreQ c r).time := (time_setCoreQ d c r).symm
      _ ≤ _ := time_le_updateTime _ _

theorem time_le_step (d : AragoSpec) (id : Nat) (d2 : AragoSpec)
    (h : d.step = some (id, d2)) : d.time ≤ d2.time := by
  unfold AragoSpec.step at h
  rcases hc : d.stepChoice with _ | c
  · rw [hc] at h; exact absurd h (by simp)
  · rw [hc] at h; exact time_le_popCore d c id d2 h

theorem time_le_drain (fuel : Nat) : ∀ d : AragoSpec, d.time ≤ (d.drain fuel).time := by
  induction fuel with
  | zero => intro d; exact le_refl _
  | succ n ih =>
    intro d
    show d.time ≤ (AragoSpec.drain d (n + 1)).time
    unfold AragoSpec.drain
    rcases h : d.step with _ | ⟨i, d2⟩
    · exact le_refl _
    · exact le_trans (time_le_step d i d2 h) (ih d2)

theorem time_le_applyOp (d : AragoSpec) (o : DeviceOp) :
    d.time ≤ (applyOp d o).time := by
  cases o with
  | toDev id reg => rw [applyOp, time_toDevice]; omega
  | sched op id reg => exact time_le_schedule d op id reg
  | elapse => exact time_le_drain _ d

theorem time_le_replayOps : ∀ (l : List DeviceOp) (d : AragoSpec),
    d.time ≤ (replayOps d l).time := by
  intro l
  induction l with
  | nil => intro d; exact le_refl _
  | cons o rest ih =>
    intro d
    exact le_trans (time_le_applyOp d o) (ih (applyOp d o))

theorem time_le_foldl {α : Type} (g : AragoSpec → α → AragoSpec)
    (h : ∀ acc x, acc.time ≤ (g acc x).time) :
    ∀ (l : List α) (acc : AragoSpec), acc.time ≤ (List.foldl g acc l).time := by
  intro l
  induction l with
  | nil => intro acc; exact le_refl _
  | cons x xs ih => intro acc; exact le_trans (h acc x) (ih (g acc x))

/-- C8: the device clock is monotonically nondecreasing: no single device
operation, no replayed operation list, and no instruction replay
(`exec_time`) ever decreases `time`. -/
theorem c8_time_monotonic :
    (∀ (d : AragoSpec) (o : DeviceOp), d.time ≤ (applyOp d o).time) ∧
    (∀ (l : List DeviceOp) (d : AragoSpec), d.time ≤ (replayOps d l).time) ∧
    (∀ (dg : Dag) (moves : List Instruction) (dev : AragoSpec),
      dev.time ≤ (execDevice dg moves dev).time) := by
  refine ⟨time_le_applyOp, time_le_replayOps, ?_⟩
  intro dg moves dev
  unfold execDevice
  refine le_trans (time_le_foldl _ ?_ moves dev) (time_le_drain _ _)
  intro acc inst
  have h1 : acc.time ≤ (inst.preMove.foldl (fun dv p => dv.toDevice p.1 p.2) acc).time :=
    time_le_foldl _ (fun a p => by rw [time_toDevice]; omega) _ _
  refine le_trans h1 ?_
  rcases dg.op inst.id with _ | x
  · simp only [time_toDevice]; omega
  · exact time_le_schedule _ x inst.id inst.resReg

/-! ## Helper lemmas: the binding maps only grow -/

theorem lookupA_isSome_iff (m : List (Nat × Nat)) (k : Nat) :
    (lookupA m k).isSome = true ↔ ∃ p ∈ m, p.1 = k := by
  unfold lookupA
  cases h : m.find? (fun p => p.1 == k) with
  | none =>
    simp only [Option.isSome_none, Bool.false_eq_true, false_iff]
    rintro ⟨p, hp, hk⟩
    have := List.find?_eq_none.mp h p hp
    simp [hk] at this
  | some q =>
    simp only [Option.isSome_some, true_iff]
    exact ⟨q, List.mem_of_find?_eq_some h, by simpa using List.find?_some h⟩

theorem insertA_key_pres {m : List (Nat × Nat)} {k' : Nat} (k v : Nat)
    (h : ∃ p ∈ m, p.1 = k') : ∃ p ∈ insertA m k v, p.1 = k' := by
  rcases h with ⟨p, hp, hk⟩
  unfold insertA
  by_cases hc : m.any (fun q => q.1 == k) = true
  · simp only [hc, if_true]
    refine ⟨if p.1 == k then (k, v) else p, List.mem_map_of_mem _ hp, ?_⟩
    by_cases hpk : p.1 == k
    · simp only [hpk, if_true]
      have : p.1 = k := by simpa using hpk
      omega
    · simp only [hpk]
      simpa using hk
  · simp only [hc, if_false]
    exact ⟨p, List.mem_append_left _ hp, hk⟩

theorem insertA_key_new (m : List (Nat × Nat)) (k v : Nat) :
    ∃ p ∈ insertA m k v, p.1 = k := by
  unfold insertA
  by_cases hc : m.any (fun q => q.1 == k) = true
  · simp only [hc, if_true]
    rcases List.any_eq_true.mp hc with ⟨q, hq, hqk⟩
    refine ⟨(k, v), List.mem_map.mpr ⟨q, hq, ?_⟩, rfl⟩
    simp [hqk]
  · simp only [hc, if_false]
    exact ⟨(k, v), List.mem_append_right _ (by simp), rfl⟩

theorem mem_insertA_elim {m : List (Nat × Nat)} {k v : Nat} {p : Nat × Nat}
    (h : p ∈ insertA m k v) : p = (k, v) ∨ p ∈ m := by
  unfold insertA at h
  by_cases hc : m.any (fun q => q.1 == k) = true
  · rw [hc, if_pos rfl] at h
    rcases List.mem_map.mp h with ⟨q, hq, hqe⟩
    by_cases hqk : q.1 == k
    · left; rw [← hqe]; simp [hqk]
    · right; rw [← hqe]; simp only [hqk]; simpa using hq
  · simp only [hc, if_false] at h
    rcases List.mem_append.mp h with h | h
    · right; exact h
    · left; simpa using h

theorem mem_insertS_pres {s : List Nat} {x : Nat} (y : Nat) (h : x ∈ s) :
    x ∈ insertS s y := by
  unfold insertS
  by_cases hc : y ∈ s
  · simpa [hc]
  · simp only [hc, if_false]
    exact List.mem_append_left _ h

theorem activeMemory_setCoreQ (d : AragoSpec) (c : ChipType) (q : List (Nat × Nat)) :
    (d.setCoreQ c q).activeMemory = d.activeMemory := by cases c <;> rfl

theorem registers_setCoreQ (d : AragoSpec) (c : ChipType) (q : List (Nat × Nat)) :
    (d.setCoreQ c q).registers = d.registers := by cases c <;> rfl

theorem doneTasks_setCoreQ (d : AragoSpec) (c : ChipType) (q : List (Nat × Nat)) :
    (d.setCoreQ c q).doneTasks = d.doneTasks := by cases c <;> rfl

/-- Field characterization of `to_device`: both maps get an insert, the id
is marked done. -/
theorem toDevice_fields (d : AragoSpec) (i r : Nat) :
    (d.toDevice i r).activeMemory = insertA d.activeMemory i r ∧
    (d.toDevice i r).registers = insertA d.registers r i ∧
    (d.toDevice i r).doneTasks = insertS d.doneTasks i :=
  ⟨rfl, rfl, rfl⟩

/-- Field characterization of `schedule`: both maps get the result binding
inserted; `done_tasks` either stays or gets one retired id added. -/
theorem schedule_fields (d : AragoSpec) (op : Operation) (i r : Nat) :
    (d.schedule op i r).activeMemory = insertA d.activeMemory i r ∧
    (d.schedule op i r).registers = insertA d.registers r i ∧
    ((d.schedule op i r).doneTasks = d.doneTasks ∨
      ∃ x, (d.schedule op i r).doneTasks = insertS d.doneTasks x) := by
  unfold AragoSpec.schedule
  split
  · refine ⟨?_, ?_, Or.inl ?_⟩
    · show insertA (AragoSpec.setCoreQ _ _ _).activeMemory i r = _
      rw [activeMemory_setCoreQ]
    · show insertA (AragoSpec.setCoreQ _ _ _).registers r i = _
      rw [registers_setCoreQ]
    · show (AragoSpec.setCoreQ _ _ _).doneTasks = _
      rw [doneTasks_setCoreQ]
  · rename_i p q _
    refine ⟨?_, ?_, Or.inr ⟨p.1, ?_⟩⟩
    · show insertA (AragoSpec.setCoreQ _ _ _).activeMemory i r = _
      rw [activeMemory_setCoreQ]
    · show insertA (AragoSpec.setCoreQ _ _ _).registers r i = _
      rw [registers_setCoreQ]
    · show insertS (AragoSpec.setCoreQ _ _ _).doneTasks p.1 = _
      rw [doneTasks_setCoreQ]

/-- Field characterization of `step`: the maps are untouched, the popped id
is marked done. -/
theorem step_fields (d : AragoSpec) (i : Nat) (d2 : AragoSpec)
    (h : d.step = some (i, d2)) :
    d2.activeMemory = d.activeMemory ∧ d2.registers = d.registers ∧
    d2.doneTasks = insertS d.doneTasks i := by
  unfold AragoSpec.step at h
  split at h
  · exact Option.noConfusion h
  · rename_i c _
    unfold AragoSpec.popCore at h
    split at h
    · exact Option.noConfusion h
    · rename_i j t rest _
      simp only [Option.some.injEq, Prod.mk.injEq] at h
      rcases h with ⟨hj, h2⟩
      subst hj
      rw [← h2]
      refine ⟨?_, ?_, ?_⟩
      · show (AragoSpec.setCoreQ _ _ _).activeMemory = _
        rw [activeMemory_setCoreQ]
      · show (AragoSpec.setCoreQ _ _ _).registers = _
        rw [registers_setCoreQ]
      · show insertS (AragoSpec.setCoreQ _ _ _).doneTasks _ = _
        rw [doneTasks_setCoreQ]

theorem memHas_congr {d2 d : AragoSpec} (h : d2.activeMemory = d.activeMemory) :
    memHas d2 = memHas d := by unfold memHas; rw [h]

theorem memHas_insert {d2 d : AragoSpec} {i r : Nat}
    (h : d2.activeMemory = insertA d.activeMemory i r) :
    ∀ id, memHas d id = true → memHas d2 id = true := by
  intro id hid
  unfold memHas at *
  rw [h]
  exact (lookupA_isSome_iff _ _).mpr (insertA_key_pres _ _ ((lookupA_isSome_iff _ _).mp hid))

theorem regHas_insert {d2 d : AragoSpec} {i r : Nat}
    (h : d2.registers = insertA d.registers r i) :
    ∀ reg, regHas d reg = true → regHas d2 reg = true := by
  intro reg hreg
  unfold regHas at *
  rw [h]
  exact (lookupA_isSome_iff _ _).mpr (insertA_key_pres _ _ ((lookupA_isSome_iff _ _).mp hreg))

/-- Monotonicity of the three grow-only stores under one device operation:
nothing is ever unbound. -/
theorem applyOp_grows (d : AragoSpec) (o : DeviceOp) :
    (∀ id, memHas d id = true → memHas (applyOp d o) id = true) ∧
    (∀ reg, regHas d reg = true → regHas (applyOp d o) reg = true) ∧
    (∀ id, id ∈ d.doneTasks → id ∈ (applyOp d o).doneTasks) := by
  cases o with
  | toDev i r =>
    rcases toDevice_fields d i r with ⟨hm, hr, hd⟩
    refine ⟨memHas_insert hm, regHas_insert hr, fun id h => ?_⟩
    have he : (applyOp d (DeviceOp.toDev i r)).doneTasks = insertS d.doneTasks i := hd
    rw [he]
    exact mem_insertS_pres i h
  | sched op i r =>
    rcases schedule_fields d op i r with ⟨hm, hr, hd⟩
    refine ⟨memHas_insert hm, regHas_insert hr, fun id h => ?_⟩
    rcases hd with hd | ⟨x, hd⟩
    · rw [show (applyOp d (DeviceOp.sched op i r)).doneTasks = _ from hd]; exact h
    · rw [show (applyOp d (DeviceOp.sched op i r)).doneTasks = _ from hd]
      exact mem_insertS_pres x h
  | elapse =>
    show (∀ id, memHas d id = true → memHas d.elapsedDevice id = true) ∧
      (∀ reg, regHas d reg = true → regHas d.elapsedDevice reg = true) ∧
      (∀ id, id ∈ d.doneTasks → id ∈ d.elapsedDevice.doneTasks)
    unfold AragoSpec.elapsedDevice
    generalize d.matQ.length + d.scaQ.length = fuel
    induction fuel generalizing d with
    | zero => exact ⟨fun _ h => h, fun _ h => h, fun _ h => h⟩
    | succ n ih =>
      show (∀ id, memHas d id = true → memHas (AragoSpec.drain d (n + 1)) id = true) ∧
        (∀ reg, regHas d reg = true → regHas (AragoSpec.drain d (n + 1)) reg = true) ∧
        (∀ id, id ∈ d.doneTasks → id ∈ (AragoSpec.drain d (n + 1)).doneTasks)
      unfold AragoSpec.drain
      rcases hs : d.step with _ | ⟨j, d2⟩
      · exact ⟨fun _ h => h, fun _ h => h, fun _ h => h⟩
      · rcases step_fields d j d2 hs with ⟨hm, hr, hd⟩
        rcases ih d2 with ⟨im, ir, idn⟩
        refine ⟨fun id h => im id ?_, fun reg h => ir reg ?_, fun id h => idn id ?_⟩
        · rw [memHas_congr hm]; exact h
        · unfold regHas; rw [hr]; exact h
        · rw [hd]; exact mem_insertS_pres j h

theorem replayOps_grows : ∀ (l : List DeviceOp) (d : AragoSpec),
    (∀ id, memHas d id = true → memHas (replayOps d l) id = true) ∧
    (∀ reg, regHas d reg = true → regHas (replayOps d l) reg = true) ∧
    (∀ id, id ∈ d.doneTasks → id ∈ (replayOps d l).doneTasks) := by
  intro l
  induction l with
  | nil => exact fun d => ⟨fun _ h => h, fun _ h => h, fun _ h => h⟩
  | cons o rest ih =>
    intro d
    rcases applyOp_grows d o with ⟨am, ar, ad⟩
    rcases ih (applyOp d o) with ⟨rm, rr, rd⟩
    exact ⟨fun id h => rm id (am id h), fun reg h => rr reg (ar reg h),
      fun id h => rd id (ad id h)⟩

/-- C9: the device model never unbinds anything.  `to_device` and
`schedule` only insert into `active_memory` / `registers` / `done_tasks`
and no replayed operation removes entries, so once an id is present the
`schedule` assertion (`scheduleOk`) on any input set containing it keeps
succeeding at every later step. -/
theorem c9_device_never_unbinds :
    ∀ (l : List DeviceOp) (d : AragoSpec),
      (∀ id, memHas d id = true → memHas (replayOps d l) id = true) ∧
      (∀ reg, regHas d reg = true → regHas (replayOps d l) reg = true) ∧
      (∀ id, id ∈ d.doneTasks → id ∈ (replayOps d l).doneTasks) ∧
      (∀ inputs, scheduleOk d inputs = true → scheduleOk (replayOps d l) inputs = true) := by
  intro l d
  rcases replayOps_grows l d with ⟨hm, hr, hd⟩
  refine ⟨hm, hr, hd, fun inputs h => ?_⟩
  unfold scheduleOk at *
  rw [List.all_eq_true] at *
  intro i hi
  exact hm i (h i hi)

/-- C9 witness: id 0 is moved to the device, then an unrelated op is
scheduled; 0 stays bound, register 5 stays bound, 0 stays done, and the
schedule assertion on inputs `[0]` still holds. -/
theorem c9_device_never_unbinds_witness :
    memHas (replayOps (AragoSpec.start.toDevice 0 5)
        [DeviceOp.sched Operation.VAdd 1 2]) 0 = true ∧
    regHas (replayOps (AragoSpec.start.toDevice 0 5)
        [DeviceOp.sched Operation.VAdd 1 2]) 5 = true ∧
    0 ∈ (replayOps (AragoSpec.start.toDevice 0 5)
        [DeviceOp.sched Operation.VAdd 1 2]).doneTasks ∧
    scheduleOk (replayOps (AragoSpec.start.toDevice 0 5)
        [DeviceOp.sched Operation.VAdd 1 2]) [0] = true := by
  rcases c9_device_never_unbinds [DeviceOp.sched Operation.VAdd 1 2]
      (AragoSpec.start.toDevice 0 5) with ⟨hm, hr, hd, hs⟩
  exact ⟨hm 0 (by decide), hr 5 (by decide), hd 0 (by decide), hs [0] (by decide)⟩

/-- One operation preserves "every `registers` entry points to a bound id". -/
theorem regs_point_applyOp (d : AragoSpec) (o : DeviceOp)
    (h : ∀ p ∈ d.registers, memHas d p.2 = true) :
    ∀ p ∈ (applyOp d o).registers, memHas (applyOp d o) p.2 = true := by
  cases o with
  | toDev i r =>
    rcases toDevice_fields d i r with ⟨hm, hr, _⟩
    intro p hp
    have hp2 : p ∈ insertA d.registers r i := by rw [← hr]; exact hp
    rcases mem_insertA_elim hp2 with hnew | hold
    · subst hnew
      unfold memHas
      rw [show (applyOp d (DeviceOp.toDev i r)).activeMemory = _ from hm]
      exact (lookupA_isSome_iff _ _).mpr (insertA_key_new _ _ _)
    · exact memHas_insert hm p.2 (h p hold)
  | sched op i r =>
    rcases schedule_fields d op i r with ⟨hm, hr, _⟩
    intro p hp
    have hp2 : p ∈ insertA d.registers r i := by rw [← hr]; exact hp
    rcases mem_insertA_elim hp2 with hnew | hold
    · subst hnew
      unfold memHas
      rw [show (applyOp d (DeviceOp.sched op i r)).activeMemory = _ from hm]
      exact (lookupA_isSome_iff _ _).mpr (insertA_key_new _ _ _)
    · exact memHas_insert hm p.2 (h p hold)
  | elapse =>
    show ∀ p ∈ d.elapsedDevice.registers, memHas d.elapsedDevice p.2 = true
    unfold AragoSpec.elapsedDevice
    generalize d.matQ.length + d.scaQ.length = fuel
    induction fuel generalizing d with
    | zero => exact h
    | succ n ih =>
      show ∀ p ∈ (AragoSpec.drain d (n + 1)).registers, _
      unfold AragoSpec.drain
      rcases hs : d.step with _ | ⟨j, d2⟩
      · exact h
      · rcases step_fields d j d2 hs with ⟨hm, hr, _⟩
        refine ih d2 ?_
        intro p hp
        rw [memHas_congr hm]
        exact h p (by rw [← hr]; exact hp)

/-- C7 amended: along any replayed operation sequence from a fresh device,
every binding `reg → id` in `registers` points to an id bound in
`active_memory` (the full inverse-maps property fails, and the maps are
global rather than per-chip). -/
theorem c7_registers_point_to_bound_ids :
    ∀ (l : List DeviceOp) (p : Nat × Nat),
      p ∈ (replayOps AragoSpec.start l).registers →
      memHas (replayOps AragoSpec.start l) p.2 = true := by
  have main : ∀ (l : List DeviceOp) (d : AragoSpec),
      (∀ p ∈ d.registers, memHas d p.2 = true) →
      ∀ p ∈ (replayOps d l).registers, memHas (replayOps d l) p.2 = true := by
    intro l
    induction l with
    | nil => exact fun d h => h
    | cons o rest ih =>
      intro d h
      exact ih (applyOp d o) (regs_point_applyOp d o h)
  intro l p hp
  exact main l AragoSpec.start (by intro q hq; cases hq) p hp

/-- C7 amended witness. -/
theorem c7_registers_point_to_bound_ids_witness :
    memHas (replayOps AragoSpec.start [DeviceOp.toDev 4 7]) 4 = true :=
  c7_registers_point_to_bound_ids [DeviceOp.toDev 4 7] (7, 4) (by decide)

/-- C7 counterexample: replaying the baseline schedule of the two-input
DAG binds both inputs to register 0; afterwards `active_memory` maps ids 0
and 1 to register 0 while `registers` maps 0 to id 1 only, so the two maps
are not inverses. -/
theorem c7_inverse_maps_counterexample :
    inverseMaps (execDevice c7dag
      (baselineMoves c7dag ((topSort c7dag).flatten)) AragoSpec.start) = false ∧
    (execDevice c7dag (baselineMoves c7dag ((topSort c7dag).flatten))
      AragoSpec.start).activeMemory = [(0, 0), (1, 0)] ∧
    (execDevice c7dag (baselineMoves c7dag ((topSort c7dag).flatten))
      AragoSpec.start).registers = [(0, 1)] := by
  refine ⟨?_, ?_, ?_⟩ <;> decide

/-! ## Helper lemmas: the drain order of `elapsed_time` -/

theorem coreQ_setCoreQ_same (d : AragoSpec) (c : ChipType) (q : List (Nat × Nat)) :
    (d.setCoreQ c q).coreQ c = q := by cases c <;> rfl

theorem coreQ_setCoreQ_other (d : AragoSpec) (c c2 : ChipType) (q : List (Nat × Nat))
    (h : c2 ≠ c) : (d.setCoreQ c q).coreQ c2 = d.coreQ c2 := by
  cases c <;> cases c2 <;> first | rfl | exact absurd rfl h

theorem coreQ_timeDone (d : AragoSpec) (t : Nat) (dts : List Nat) (c : ChipType) :
    ({ d.updateTime t with doneTasks := dts } : AragoSpec).coreQ c = d.coreQ c := by
  cases c <;> rfl

theorem popCore_queues (d : AragoSpec) (c : ChipType) (id t : Nat)
    (rest : List (Nat × Nat)) (h : d.coreQ c = (id, t) :: rest) :
    ∃ d2, d.popCore c = some (id, d2) ∧ d2.coreQ c = rest ∧
      (∀ c2, c2 ≠ c → d2.coreQ c2 = d.coreQ c2) := by
  refine ⟨{ (d.setCoreQ c rest).updateTime t with
      doneTasks := insertS ((d.setCoreQ c rest).updateTime t).doneTasks id }, ?_, ?_, ?_⟩
  · unfold AragoSpec.popCore
    rw [h]
  · rw [coreQ_timeDone]
    exact coreQ_setCoreQ_same d c rest
  · intro c2 hc2
    rw [coreQ_timeDone]
    exact coreQ_setCoreQ_other d c c2 rest hc2

/-- On sorted core queues, the completion times retired by the drain loop
come out in nondecreasing order, and they all dominate any lower bound of
the two queues. -/
theorem drainTrace_sorted : ∀ (fuel : Nat) (d : AragoSpec),
    d.matQ.Pairwise (fun p q => p.2 ≤ q.2) →
    d.scaQ.Pairwise (fun p q => p.2 ≤ q.2) →
    ((d.drainTrace fuel).map (fun x => x.2.2)).Pairwise (· ≤ ·) ∧
    (∀ lb : Nat, (∀ p ∈ d.matQ, lb ≤ p.2) → (∀ p ∈ d.scaQ, lb ≤ p.2) →
      ∀ x ∈ (d.drainTrace fuel).map (fun x => x.2.2), lb ≤ x) := by
  intro fuel
  induction fuel with
  | zero =>
    intro d _ _
    exact ⟨List.Pairwise.nil, by intro lb _ _ x hx; cases hx⟩
  | succ n ih =>
    intro d hm hs
    rcases hqm : d.matQ with _ | ⟨⟨im, tm⟩, rm⟩ <;>
      rcases hqs : d.scaQ with _ | ⟨⟨is, ts⟩, rs⟩
    · have htr : AragoSpec.drainTrace d (n + 1) = [] := by
        conv_lhs => rw [AragoSpec.drainTrace.eq_def]
        rw [hqm, hqs]
      rw [htr]
      exact ⟨List.Pairwise.nil, by intro lb _ _ x hx; cases hx⟩
    · -- only the scalar queue is populated
      rcases popCore_queues d ChipType.Scalar is ts rs hqs with ⟨d2, hpop, hsame, hother⟩
      have htr : AragoSpec.drainTrace d (n + 1)
          = (ChipType.Scalar, is, ts) :: AragoSpec.drainTrace d2 n := by
        conv_lhs => rw [AragoSpec.drainTrace.eq_def]
        rw [hqm, hqs]
        simp only [hpop]
      have hd2m : d2.matQ = [] := by
        have h2 : d2.matQ = d.matQ := hother ChipType.Opac (fun hcc => ChipType.noConfusion hcc)
        rw [hqm] at h2; exact h2
      have hd2s : d2.scaQ = rs := hsame
      have hrm2 : d2.matQ.Pairwise (fun p q => p.2 ≤ q.2) := by
        rw [hd2m]; exact List.Pairwise.nil
      have hrs2 : d2.scaQ.Pairwise (fun p q => p.2 ≤ q.2) := by
        rw [hd2s]; rw [hqs] at hs; exact hs.tail
      rcases ih d2 hrm2 hrs2 with ⟨ihp, ihlb⟩
      have hall : ∀ x ∈ (AragoSpec.drainTrace d2 n).map (fun x => x.2.2), ts ≤ x := by
        refine ihlb ts ?_ ?_
        · rw [hd2m]; intro p hp; cases hp
        · rw [hd2s]; intro p hp
          rw [hqs] at hs
          exact (List.pairwise_cons.mp hs).1 p hp
      rw [htr]
      refine ⟨?_, ?_⟩
      · simp only [List.map_cons]
        exact List.pairwise_cons.mpr ⟨hall, ihp⟩
      · intro lb hlbm hlbs x hx
        simp only [List.map_cons, List.mem_cons] at hx
        have hlb0 : lb ≤ ts := hlbs (is, ts) (List.mem_cons_self _ _)
        rcases hx with hx | hx
        · omega
        · exact le_trans hlb0 (hall x hx)
    · -- only the matrix queue is populated
      rcases popCore_queues d ChipType.Opac im tm rm hqm with ⟨d2, hpop, hsame, hother⟩
      have htr : AragoSpec.drainTrace d (n + 1)
          = (ChipType.Opac, im, tm) :: AragoSpec.drainTrace d2 n := by
        conv_lhs => rw [AragoSpec.drainTrace.eq_def]
        rw [hqm, hqs]
        simp only [hpop]
      have hd2m : d2.matQ = rm := hsame
      have hd2s : d2.scaQ = [] := by
        have h2 : d2.scaQ = d.scaQ := hother ChipType.Scalar (fun hcc => ChipType.noConfusion hcc)
        rw [hqs] at h2; exact h2
      have hrm2 : d2.matQ.Pairwise (fun p q => p.2 ≤ q.2) := by
        rw [hd2m]; rw [hqm] at hm; exact hm.tail
      have hrs2 : d2.scaQ.Pairwise (fun p q => p.2 ≤ q.2) := by
        rw [hd2s]; exact List.Pairwise.nil
      rcases ih d2 hrm2 hrs2 with ⟨ihp, ihlb⟩
      have hall : ∀ x ∈ (AragoSpec.drainTrace d2 n).map (fun x => x.2.2), tm ≤ x := by
        refine ihlb tm ?_ ?_
        · rw [hd2m]; intro p hp
          rw [hqm] at hm
          exact (List.pairwise_cons.mp hm).1 p hp
        · rw [hd2s]; intro p hp; cases hp
      rw [htr]
      refine ⟨?_, ?_⟩
      · simp only [List.map_cons]
        exact List.pairwise_cons.mpr ⟨hall, ihp⟩
      · intro lb hlbm hlbs x hx
        simp only [List.map_cons, List.mem_cons] at hx
        have hlb0 : lb ≤ tm := hlbm (im, tm) (List.mem_cons_self _ _)
        rcases hx with hx | hx
        · omega
        · exact le_trans hlb0 (hall x hx)
    · -- both queues populated: strict `<` decides, ties go to the scalar core
      by_cases hlt : tm < ts
      · rcases popCore_queues d ChipType.Opac im tm rm hqm with ⟨d2, hpop, hsame, hother⟩
        have htr : AragoSpec.drainTrace d (n + 1)
            = (ChipType.Opac, im, tm) :: AragoSpec.drainTrace d2 n := by
          conv_lhs => rw [AragoSpec.drainTrace.eq_def]
          rw [hqm, hqs]
          simp only [hlt, if_true, hpop]
        have hd2m : d2.matQ = rm := hsame
        have hd2s : d2.scaQ = (is, ts) :: rs := by
          have h2 : d2.scaQ = d.scaQ := hother ChipType.Scalar (fun hcc => ChipType.noConfusion hcc)
          rw [hqs] at h2; exact h2
        have hrm2 : d2.matQ.Pairwise (fun p q => p.2 ≤ q.2) := by
          rw [hd2m]; rw [hqm] at hm; exact hm.tail
        have hrs2 : d2.scaQ.Pairwise (fun p q => p.2 ≤ q.2) := by
          rw [hd2s]; rw [hqs] at hs; exact hs
        rcases ih d2 hrm2 hrs2 with ⟨ihp, ihlb⟩
        have hall : ∀ x ∈ (AragoSpec.drainTrace d2 n).map (fun x => x.2.2), tm ≤ x := by
          refine ihlb tm ?_ ?_
          · rw [hd2m]; intro p hp
            rw [hqm] at hm
            exact (List.pairwise_cons.mp hm).1 p hp
          · rw [hd2s]; intro p hp
            rcases List.mem_cons.mp hp with hp | hp
            · subst hp; exact le_of_lt hlt
            · rw [hqs] at hs
              exact le_trans (le_of_lt hlt) ((List.pairwise_cons.mp hs).1 p hp)
        rw [htr]
        refine ⟨?_, ?_⟩
        · simp only [List.map_cons]
          exact List.pairwise_cons.mpr ⟨hall, ihp⟩
        · intro lb hlbm hlbs x hx
          simp only [List.map_cons, List.mem_cons] at hx
          have hlb0 : lb ≤ tm := hlbm (im, tm) (List.mem_cons_self _ _)
          rcases hx with hx | hx
          · omega
          · exact le_trans hlb0 (hall x hx)
      · rcases popCore_queues d ChipType.Scalar is ts rs hqs with ⟨d2, hpop, hsame, hother⟩
        have htr : AragoSpec.drainTrace d (n + 1)
            = (ChipType.Scalar, is, ts) :: AragoSpec.drainTrace d2 n := by
          conv_lhs => rw [AragoSpec.drainTrace.eq_def]
          rw [hqm, hqs]
          simp only [hlt, if_false, hpop]
        have hd2m : d2.matQ = (im, tm) :: rm := by
          have h2 : d2.matQ = d.matQ := hother ChipType.Opac (fun hcc => ChipType.noConfusion hcc)
          rw [hqm] at h2; exact h2
        have hd2s : d2.scaQ = rs := hsame
        have hrm2 : d2.matQ.Pairwise (fun p q => p.2 ≤ q.2) := by
          rw [hd2m]; rw [hqm] at hm; exact hm
        have hrs2 : d2.scaQ.Pairwise (fun p q => p.2 ≤ q.2) := by
          rw [hd2s]; rw [hqs] at hs; exact hs.tail
        rcases ih d2 hrm2 hrs2 with ⟨ihp, ihlb⟩
        have hts : ts ≤ tm := le_of_not_lt hlt
        have hall : ∀ x ∈ (AragoSpec.drainTrace d2 n).map (fun x => x.2.2), ts ≤ x := by
          refine ihlb ts ?_ ?_
          · rw [hd2m]; intro p hp
            rcases List.mem_cons.mp hp with hp | hp
            · subst hp; exact hts
            · rw [hqm] at hm
              exact le_trans hts ((List.pairwise_cons.mp hm).1 p hp)
          · rw [hd2s]; intro p hp
            rw [hqs] at hs
            exact (List.pairwise_cons.mp hs).1 p hp
        rw [htr]
        refine ⟨?_, ?_⟩
        · simp only [List.map_cons]
          exact List.pairwise_cons.mpr ⟨hall, ihp⟩
        · intro lb hlbm hlbs x hx
          simp only [List.map_cons, List.mem_cons] at hx
          have hlb0 : lb ≤ ts := hlbs (is, ts) (List.mem_cons_self _ _)
          rcases hx with hx | hx
          · omega
          · exact le_trans hlb0 (hall x hx)
/-- C5 amended: `elapsed_time` retires in-flight tasks in ascending order
of completion time across the two cores (given the FIFO queues are sorted,
as replay produces them), and when the two heads tie the SCALAR core's
task is retired first — the source compares with strict `t1 < t2`, so a
tie falls to the `else` (scalar) branch, not to the matrix core. -/
theorem c5_drain_ascending_ties_scalar :
    (∀ (d : AragoSpec) (i1 i2 t : Nat) (r1 r2 : List (Nat × Nat)),
        d.matQ = (i1, t) :: r1 → d.scaQ = (i2, t) :: r2 →
        d.stepChoice = some ChipType.Scalar) ∧
    (∀ (fuel : Nat) (d : AragoSpec),
        d.matQ.Pairwise (fun p q => p.2 ≤ q.2) →
        d.scaQ.Pairwise (fun p q => p.2 ≤ q.2) →
        ((d.drainTrace fuel).map (fun x => x.2.2)).Pairwise (· ≤ ·)) := by
  constructor
  · intro d i1 i2 t r1 r2 hm hs
    unfold AragoSpec.stepChoice
    rw [hm, hs]
    simp
  · intro fuel d hm hs
    exact (drainTrace_sorted fuel d hm hs).1

/-- C5 amended witness: a tied pair of heads plus a later scalar task. -/
theorem c5_drain_ascending_ties_scalar_witness :
    ({ AragoSpec.start with matQ := [(1, 5)], scaQ := [(2, 5), (3, 7)] }
        : AragoSpec).stepChoice = some ChipType.Scalar ∧
    ((({ AragoSpec.start with matQ := [(1, 5)], scaQ := [(2, 5), (3, 7)] }
        : AragoSpec).drainTrace 3).map (fun x => x.2.2)).Pairwise (· ≤ ·) := by
  constructor
  · exact c5_drain_ascending_ties_scalar.1 _ 1 2 5 [] [(3, 7)] rfl rfl
  · exact c5_drain_ascending_ties_scalar.2 3 _
      (by decide) (by decide)

/-- C5 counterexample: with both heads completing at time 5, the scalar
core's task (id 2) is retired before the matrix core's task (id 1) — the
claim says the matrix core wins ties. -/
theorem c5_tie_counterexample :
    tieDevice.matQ = [(1, 5)] ∧ tieDevice.scaQ = [(2, 5)] ∧
    (tieDevice.drainTrace 2).map (fun x => x.2.1) = [2, 1] ∧
    ¬ tieDevice.stepChoice = some ChipType.Opac := by
  refine ⟨rfl, rfl, by decide, by decide⟩

/-! ## Helper lemmas: `alloc_reg` eviction order -/

theorem lexCmp_self : ∀ x : List Nat, lexCmp x x = .eq := by
  intro x
  induction x with
  | nil => rfl
  | cons a xs ih =>
    show lexCmp (a :: xs) (a :: xs) = .eq
    unfold lexCmp
    simp [ih]

theorem lexCmp_gt_swap : ∀ x y : List Nat, lexCmp x y = .gt → lexCmp y x = .lt := by
  intro x
  induction x with
  | nil =>
    intro y h
    cases y with
    | nil => exact absurd h (by decide)
    | cons b ys => exact absurd h (by simp [lexCmp])
  | cons a xs ih =>
    intro y h
    cases y with
    | nil => rfl
    | cons b ys =>
      unfold lexCmp at h ⊢
      by_cases h1 : a < b
      · rw [if_pos h1] at h
        exact absurd h (by decide)
      · rw [if_neg h1] at h
        by_cases h2 : b < a
        · rw [if_pos h2]
        · rw [if_neg h2] at h
          rw [if_neg h2, if_neg h1]
          exact ih ys h

theorem lexCmp_le_trans : ∀ x y z : List Nat,
    lexCmp x y ≠ .gt → lexCmp y z ≠ .gt → lexCmp x z ≠ .gt := by
  intro x
  induction x with
  | nil =>
    intro y z _ _
    cases z with
    | nil => simp [lexCmp]
    | cons c zs => simp [lexCmp]
  | cons a xs ih =>
    intro y z hxy hyz
    cases y with
    | nil => exact absurd rfl hxy
    | cons b ys =>
      cases z with
      | nil => exact absurd rfl hyz
      | cons c zs =>
        unfold lexCmp at hxy hyz ⊢
        by_cases h1 : a < b
        · by_cases h2 : b < c
          · rw [if_pos (by omega : a < c)]; decide
          · rw [if_neg h2] at hyz
            by_cases h3 : c < b
            · rw [if_pos h3] at hyz; exact absurd rfl hyz
            · rw [if_pos (by omega : a < c)]; decide
        · rw [if_neg h1] at hxy
          by_cases h1b : b < a
          · rw [if_pos h1b] at hxy; exact absurd rfl hxy
          · by_cases h2 : b < c
            · rw [if_pos (by omega : a < c)]; decide
            · rw [if_neg h2] at hyz
              by_cases h3 : c < b
              · rw [if_pos h3] at hyz; exact absurd rfl hyz
              · -- a = b and b = c
                rw [if_neg h1b] at hxy
                rw [if_neg h3] at hyz
                rw [if_neg (by omega : ¬ a < c), if_neg (by omega : ¬ c < a)]
                exact ih ys zs hxy hyz

theorem lexCmp_head_le {a b : Nat} {xs ys : List Nat}
    (h : lexCmp (a :: xs) (b :: ys) ≠ .gt) : a ≤ b := by
  unfold lexCmp at h
  by_cases h1 : a < b
  · omega
  · rw [if_neg h1] at h
    by_cases h2 : b < a
    · rw [if_pos h2] at h; exact absurd rfl h
    · omega

theorem lexCmp_nil_right {x : List Nat} (h : lexCmp x [] ≠ .gt) : x = [] := by
  cases x with
  | nil => rfl
  | cons a xs => exact absurd rfl h

/-- The `max_by` fold starting from `some b` yields a maximal element
(under `lexCmp` on the use queues) among `b` and the rest, preferring the
last maximal element as Rust's `max_by` does. -/
theorem maxByRust_go (users : Nat → List Nat) :
    ∀ (l : List (Nat × Nat)) (b : Nat × Nat),
      ∃ p, l.foldl (fun best q =>
            match best with
            | none => some q
            | some bb => if lexCmp (users bb.1) (users q.1) = .gt then some bb else some q)
          (some b) = some p ∧
        (p = b ∨ p ∈ l) ∧ lexCmp (users b.1) (users p.1) ≠ .gt ∧
        ∀ q ∈ l, lexCmp (users q.1) (users p.1) ≠ .gt := by
  intro l
  induction l with
  | nil =>
    intro b
    refine ⟨b, rfl, Or.inl rfl, ?_, ?_⟩
    · rw [lexCmp_self]; simp
    · intro q hq; cases hq
  | cons q l ih =>
    intro b
    by_cases hcmp : lexCmp (users b.1) (users q.1) = .gt
    · rcases ih b with ⟨p, hfold, hmem, hbp, hall⟩
      refine ⟨p, ?_, ?_, hbp, ?_⟩
      · simp only [List.foldl_cons, hcmp, if_pos]
        exact hfold
      · rcases hmem with h | h
        · exact Or.inl h
        · exact Or.inr (List.mem_cons_of_mem _ h)
      · intro x hx
        rcases List.mem_cons.mp hx with hx | hx
        · subst hx
          have hlt : lexCmp (users x.1) (users b.1) = .lt := lexCmp_gt_swap _ _ hcmp
          exact lexCmp_le_trans _ _ _ (by rw [hlt]; simp) hbp
        · exact hall x hx
    · rcases ih q with ⟨p, hfold, hmem, hqp, hall⟩
      refine ⟨p, ?_, ?_, ?_, ?_⟩
      · simp only [List.foldl_cons, hcmp, if_neg, if_false]
        exact hfold
      · rcases hmem with h | h
        · exact Or.inr (by rw [h]; exact List.mem_cons_self _ _)
        · exact Or.inr (List.mem_cons_of_mem _ h)
      · exact lexCmp_le_trans _ _ _ hcmp hqp
      · intro x hx
        rcases List.mem_cons.mp hx with hx | hx
        · subst hx; exact hqp
        · exact hall x hx

/-- `max_by` on a nonempty resident map returns a resident whose use queue
compares greatest under the source's lexicographic order. -/
theorem maxByRust_spec (users : Nat → List Nat) (mem : List (Nat × Nat))
    (h : mem ≠ []) :
    ∃ p, maxByRust users mem = some p ∧ p ∈ mem ∧
      ∀ q ∈ mem, lexCmp (users q.1) (users p.1) ≠ .gt := by
  cases mem with
  | nil => exact absurd rfl h
  | cons m0 rest =>
    rcases maxByRust_go users rest m0 with ⟨p, hfold, hmem, _, hall⟩
    refine ⟨p, ?_, ?_, ?_⟩
    · unfold maxByRust
      simp only [List.foldl_cons]
      exact hfold
    · rcases hmem with hh | hh
      · rw [hh]; exact List.mem_cons_self _ _
      · exact List.mem_cons_of_mem _ hh
    · intro q hq
      rcases List.mem_cons.mp hq with hq | hq
      · subst hq
        rcases maxByRust_go users rest q with ⟨p2, hf2, _, hqp2, _⟩
        rw [hfold] at hf2
        cases hf2
        exact hqp2
      · exact hall q hq

/-- C3 amended: whenever `alloc_reg` evicts (free pool empty, residents
present), the evicted resident's remaining-uses queue compares greatest in
the source's `VecDeque` lexicographic order, where the EMPTY queue is the
LEAST element (never-used-again ids are kept, not preferred); hence the
evicted id's next use-index is ≥ the next use of every other resident that
still has one, and an empty queue is evicted only when every resident's
queue is empty. -/
theorem c3_eviction_lex_greatest (ra : RegAlloc) (c : ChipType)
    (users : Nat → List Nat) (hfree : ra.getFree c = [])
    (hmem : ra.getMem c ≠ []) :
    ∃ p, maxByRust users (ra.getMem c) = some p ∧ p ∈ ra.getMem c ∧
      ra.allocReg c users
        = (p.2, ra.setMem c ((ra.getMem c).filter (fun q => q.1 ≠ p.1))) ∧
      (∀ q ∈ ra.getMem c, lexCmp (users q.1) (users p.1) ≠ .gt) ∧
      (∀ q ∈ ra.getMem c, ∀ hq hp : Nat, ∀ tq tp : List Nat,
        users q.1 = hq :: tq → users p.1 = hp :: tp → hq ≤ hp) ∧
      (users p.1 = [] → ∀ q ∈ ra.getMem c, users q.1 = []) := by
  rcases maxByRust_spec users (ra.getMem c) hmem with ⟨p, hmax, hpmem, hall⟩
  refine ⟨p, hmax, hpmem, ?_, hall, ?_, ?_⟩
  · unfold RegAlloc.allocReg
    rw [hfree]
    simp only [List.isEmpty_nil, if_pos, hmax]
  · intro q hq hdq hdp tq tp hqe hpe
    have := hall q hq
    rw [hqe, hpe] at this
    exact lexCmp_head_le this
  · intro hpe q hq
    have := hall q hq
    rw [hpe] at this
    exact lexCmp_nil_right this

/-- C3 amended witness: two residents with nonempty queues; the one used
at step 7 (id 9) is evicted over the one used at step 2 (id 3). -/
theorem c3_eviction_lex_greatest_witness :
    ∃ p, maxByRust usersC3w (raC3w.getMem ChipType.Opac) = some p ∧
      p ∈ raC3w.getMem ChipType.Opac ∧
      raC3w.allocReg ChipType.Opac usersC3w
        = (p.2, raC3w.setMem ChipType.Opac
            ((raC3w.getMem ChipType.Opac).filter (fun q => q.1 ≠ p.1))) ∧
      (∀ q ∈ raC3w.getMem ChipType.Opac,
        lexCmp (usersC3w q.1) (usersC3w p.1) ≠ .gt) ∧
      (∀ q ∈ raC3w.getMem ChipType.Opac, ∀ hq hp : Nat, ∀ tq tp : List Nat,
        usersC3w q.1 = hq :: tq → usersC3w p.1 = hp :: tp → hq ≤ hp) ∧
      (usersC3w p.1 = [] → ∀ q ∈ raC3w.getMem ChipType.Opac, usersC3w q.1 = []) :=
  c3_eviction_lex_greatest raC3w ChipType.Opac usersC3w rfl (by decide)

/-- C3 counterexample: with resident 5 never used again (empty queue) and
resident 7 next used at step 20, `alloc_reg` evicts id 7 — its queue
`[20]` compares greater than the empty queue — whereas the claim (empty
queue = maximum, furthest next use wins) predicts id 5. -/
theorem c3_empty_queue_counterexample :
    raC3.freeOpac = [] ∧
    usersC3 5 = [] ∧ usersC3 7 = [20] ∧ (5, 0) ∈ raC3.memOpac ∧
    (raC3.allocReg ChipType.Opac usersC3).1 = 1 ∧
    (raC3.allocReg ChipType.Opac usersC3).2.memOpac = [(5, 0)] ∧
    specCmpEmptyMax (usersC3 5) (usersC3 7) = .gt := by
  refine ⟨rfl, rfl, rfl, by decide, by decide, by decide, rfl⟩

/-! ## Concrete evaluations: C2, C4, C6 -/

/-- C2: `get_costs` violates the longest-path recurrence.  On `c2dag`
(node 0 = input with users 1 and 2; node 1 = VScaMul sink, cost 1; node 2 =
VScaMul feeding the VAdd sink 3), the recurrence demands
`cost[0] = 0 + max(cost[1], cost[2]) = max(1, 1001) = 1001`, but the
ascending-key sweep visits node 0 first through the cheap path and locks in
`cost[0] = 1`.  The code's own doc comment says it computes the maximum
cost from the end (the critical path), so this is a code bug. -/
theorem c2_get_costs_breaks_recurrence :
    c2dag.op 0 = none ∧ c2dag.users 0 = [1, 2] ∧
    getCosts c2dag = [1, 1, 1001, 1000] ∧
    max ((getCosts c2dag).getD 1 0) ((getCosts c2dag).getD 2 0) = 1001 ∧
    (getCosts c2dag).getD 0 0 = 1 := by
  refine ⟨by decide, by decide, by decide, by decide, by decide⟩

/-- C4 counterexample: `c4dag` has a VScaMul node (4) and a non-VScaMul op
node (5).  Under the `HashMap` iteration order that scans VScaMul first,
`optimal_execute` emits the matrix op (with its four pre-moves) before the
scalar op, so the scalar dispatch starts at time 8 and the makespan is
1008, strictly worse than the baseline's 1005. -/
theorem c4_optimal_exceeds_baseline :
    (some Operation.VScaMul ∈ c4dag.ops ∧ some Operation.VAdd ∈ c4dag.ops) ∧
    (baselineExecute c4dag).1 = 1005 ∧
    (optimalExecute oracleMatFirst c4dag).1 = 1008 ∧
    ¬ (optimalExecute oracleMatFirst c4dag).1 ≤ (baselineExecute c4dag).1 := by
  refine ⟨by decide, by decide, by decide, by decide⟩

/-- C4 amended: the inequality depends on the unspecified `HashMap`
iteration order.  On the very same DAG, the order that scans VAdd first
yields 1004 ≤ 1005. -/
theorem c4_inequality_is_order_dependent :
    (baselineExecute c4dag).1 = 1005 ∧
    (optimalExecute oracleScaFirst c4dag).1 = 1004 ∧
    (optimalExecute oracleScaFirst c4dag).1 ≤ (baselineExecute c4dag).1 ∧
    (optimalExecute oracleMatFirst c4dag).2 = [0, 1, 2, 3, 4, 5] ∧
    (optimalExecute oracleScaFirst c4dag).2 = [0, 1, 2, 3, 5, 4] := by
  refine ⟨by decide, by decide, by decide, by decide, by decide⟩

/-- C6 counterexample: the baseline on the two-node DAG pays the input
instruction's own transfer (1) plus the consumer's pre-move (1) plus the
VScaMul dispatch (1): modeled time 3, not the claimed 2. -/
theorem c6_baseline_time_is_three :
    (baselineExecute c6dag).1 = 3 ∧ ¬ ((3 : Nat) = 2) := by
  refine ⟨by decide, by decide⟩

/-! ## Helper lemmas: arrival counting -/

theorem filter_len_eq_iff (p : Nat → Bool) : ∀ l : List Nat,
    (l.filter p).length = l.length ↔ ∀ a ∈ l, p a := by
  intro l
  induction l with
  | nil => simp
  | cons a l ih =>
    by_cases ha : p a
    · simp [ha, ih]
    · rw [List.filter_cons, if_neg ha, List.length_cons]
      constructor
      · intro h
        exfalso
        have := List.length_filter_le p l
        omega
      · intro h
        exact absurd (h a (List.mem_cons_self _ _)) (by simp [ha])

theorem filter_mem_insert (S : List Nat) (v : Nat) (hv : v ∉ S) : ∀ L : List Nat,
    (L.filter (fun x => decide (x ∈ S ++ [v]))).length
      = (L.filter (fun x => decide (x ∈ S))).length + L.count v := by
  intro L
  induction L with
  | nil => simp
  | cons a L ih =>
    rw [List.filter_cons, List.filter_cons]
    by_cases hav : a = v
    · subst hav
      have h1 : (decide (a ∈ S ++ [a])) = true := by simp
      have h2 : (decide (a ∈ S)) = false := by simpa using hv
      rw [h1, h2, if_pos rfl, if_neg (by simp), List.length_cons, ih,
        List.count_cons_self]
      omega
    · have h3 : (a ∈ S ++ [v]) ↔ a ∈ S := by
        simp only [List.mem_append, List.mem_singleton]
        exact ⟨fun h => h.elim id (fun h => absurd h hav), Or.inl⟩
      have hvc : (a :: L).count v = L.count v :=
        List.count_cons_of_ne (fun he => hav he.symm) L
      by_cases ha : a ∈ S
      · have h1 : (decide (a ∈ S ++ [v])) = true := by simp [h3, ha]
        have h2 : (decide (a ∈ S)) = true := by simpa using ha
        rw [h1, h2, if_pos rfl, if_pos rfl, List.length_cons, List.length_cons,
          ih, hvc]
        omega
      · have h1 : (decide (a ∈ S ++ [v])) = false := by simp [h3, ha]
        have h2 : (decide (a ∈ S)) = false := by simpa using ha
        rw [h1, h2, if_neg (by simp), if_neg (by simp), ih, hvc]

theorem filter_mem_all {S L : List Nat} (h : ∀ x ∈ L, x ∈ S) :
    (L.filter (fun x => decide (x ∈ S))).length = L.length := by
  rw [filter_len_eq_iff]
  intro a ha
  simpa using h a ha

theorem filter_mem_lt {S L : List Nat} {x : Nat} (hx : x ∈ L) (hxs : x ∉ S) :
    (L.filter (fun x => decide (x ∈ S))).length < L.length := by
  have hle := List.length_filter_le (fun x => decide (x ∈ S)) L
  rcases Nat.lt_or_ge ((L.filter (fun x => decide (x ∈ S))).length) L.length with h | h
  · exact h
  · have heq : (L.filter (fun x => decide (x ∈ S))).length = L.length := by omega
    have := (filter_len_eq_iff _ L).mp heq x hx
    simp at this
    exact absurd this hxs

/-- Edge-count consistency extended to all of `Nat` (out-of-range ids have
empty edge lists). -/
theorem count_users_sources {d : Dag} {rank : Nat → Nat} (hok : DagOk d rank) :
    ∀ u v, (d.users v).count u = (d.sources u).count v := by
  rcases hok with ⟨hul, hsl, hcnt, hrngU, hrngS, _, _, _⟩
  intro u v
  by_cases hv : v < d.n
  · by_cases hu : u < d.n
    · exact hcnt u (List.mem_range.mpr hu) v (List.mem_range.mpr hv)
    · have h1 : u ∉ d.users v := fun hmem =>
        hu (hrngU v (List.mem_range.mpr hv) u hmem)
      have h2 : d.sources u = [] := by
        unfold Dag.sources
        exact List.getD_eq_default _ _ (by omega)
      rw [List.count_eq_zero_of_not_mem h1, h2]
      rfl
  · have h1 : d.users v = [] := by
      unfold Dag.users
      exact List.getD_eq_default _ _ (by omega)
    rw [h1]
    by_cases hu : u < d.n
    · have h2 : v ∉ d.sources u := fun hmem =>
        hv (hrngS u (List.mem_range.mpr hu) v hmem)
      rw [List.count_eq_zero_of_not_mem h2]
      rfl
    · have h2 : d.sources u = [] := by
        unfold Dag.sources
        exact List.getD_eq_default _ _ (by omega)
      rw [h2]
      rfl

theorem sources_mem_users {d : Dag} {rank : Nat → Nat} (hok : DagOk d rank)
    {u v : Nat} (h : v ∈ d.sources u) : u ∈ d.users v := by
  have hc := count_users_sources hok u v
  have : 0 < (d.sources u).count v := List.count_pos_iff.mpr h
  exact List.count_pos_iff.mp (by omega)

/-- The arrival-counting fold shared by `top_sort` and `efficient_sort`:
folding the increment-and-emit step over a user list adds the occurrence
counts to `dn` and emits exactly the ids whose counter crosses their
in-degree. -/
theorem bumpUsers_go (d : Dag) : ∀ (rest : List Nat) (dn : Nat → Nat) (nf : List Nat),
    ∃ np,
      rest.foldl
          (fun st u =>
            let dn2 := bump st.2 u
            if dn2 u = (d.sources u).length then (st.1 ++ [u], dn2) else (st.1, dn2))
          (nf, dn)
        = (nf ++ np, fun u => dn u + rest.count u) ∧
      (∀ u, u ∈ np ↔ (dn u < (d.sources u).length ∧
        (d.sources u).length ≤ dn u + rest.count u)) ∧
      np.Nodup := by
  intro rest
  induction rest with
  | nil =>
    intro dn nf
    refine ⟨[], ?_, ?_, List.nodup_nil⟩
    · simp only [List.foldl_nil, List.append_nil]
      refine Prod.ext rfl ?_
      funext u
      simp
    · intro u
      simp only [List.not_mem_nil, false_iff, List.count_nil]
      omega
  | cons u0 rest ih =>
    intro dn nf
    have hbself : bump dn u0 u0 = dn u0 + 1 := by simp [bump]
    have hbne : ∀ u, u ≠ u0 → bump dn u0 u = dn u := by
      intro u hu; simp [bump, hu]
    have hcself : (u0 :: rest).count u0 = rest.count u0 + 1 := List.count_cons_self u0 rest
    have hcne : ∀ u, u ≠ u0 → (u0 :: rest).count u = rest.count u :=
      fun u hu => List.count_cons_of_ne hu rest
    by_cases hc : bump dn u0 u0 = (d.sources u0).length
    · rcases ih (bump dn u0) (nf ++ [u0]) with ⟨np, hfold, hmem, hnd⟩
      refine ⟨u0 :: np, ?_, ?_, ?_⟩
      · simp only [List.foldl_cons, hc, if_pos]
        rw [hfold]
        refine Prod.ext (by simp) ?_
        show (fun u => bump dn u0 u + rest.count u) = fun u => dn u + (u0 :: rest).count u
        funext u
        by_cases hu : u = u0
        · subst hu; rw [hbself, hcself]; omega
        · rw [hbne u hu, hcne u hu]
      · intro u
        by_cases hu : u = u0
        · subst hu
          simp only [List.mem_cons, true_or, true_iff]
          rw [hcself, hbself] at *
          omega
        · simp only [List.mem_cons, hu, false_or]
          rw [hmem u, hbne u hu, hcne u hu]
      · refine List.Pairwise.cons ?_ hnd
        intro b hb heq
        subst heq
        have := (hmem u0).mp hb
        rw [hbself] at this
        omega
    · rcases ih (bump dn u0) nf with ⟨np, hfold, hmem, hnd⟩
      refine ⟨np, ?_, ?_, hnd⟩
      · simp only [List.foldl_cons, hc, if_neg, if_false]
        rw [hfold]
        refine Prod.ext rfl ?_
        show (fun u => bump dn u0 u + rest.count u) = fun u => dn u + (u0 :: rest).count u
        funext u
        by_cases hu : u = u0
        · subst hu; rw [hbself, hcself]; omega
        · rw [hbne u hu, hcne u hu]
      · intro u
        by_cases hu : u = u0
        · subst hu
          rw [hmem, hbself, hcself]
          rw [hbself] at hc
          constructor
          · rintro ⟨h1, h2⟩; exact ⟨by omega, by omega⟩
          · rintro ⟨h1, h2⟩; exact ⟨by omega, by omega⟩
        · rw [hmem u, hbne u hu, hcne u hu]

theorem split_append_singleton {l p s : List Nat} {x u : Nat}
    (h : l ++ [x] = p ++ u :: s) :
    (p = l ∧ u = x ∧ s = []) ∨ ∃ s2, l = p ++ u :: s2 ∧ s = s2 ++ [x] := by
  rcases s.eq_nil_or_concat with rfl | ⟨s2, y, rfl⟩
  · left
    have h2 : l ++ [x] = p ++ [u] := h
    rcases List.append_inj' h2 rfl with ⟨h3, h4⟩
    simp at h4
    exact ⟨h3.symm, h4.symm, rfl⟩
  · right
    have h2 : l ++ [x] = (p ++ u :: s2) ++ [y] := by
      rw [h]; simp
    rcases List.append_inj' h2 rfl with ⟨h3, h4⟩
    simp at h4
    subst h4
    exact ⟨s2, h3, List.concat_eq_append _ _⟩

/-- One Kahn step: processing the frontier node `v` moves it to `emitted`
and extends the next frontier by `v`'s newly completed users. -/
theorem kahn_step {d : Dag} {rank : Nat → Nat} (hok : DagOk d rank)
    {E R nf : List Nat} {v : Nat} {dn : Nat → Nat}
    (hinv : KahnInv d E ((v :: R) ++ nf) dn) :
    KahnInv d (E ++ [v]) (R ++ (bumpUsers d v (nf, dn)).1) (bumpUsers d v (nf, dn)).2 := by
  rcases hinv with ⟨h1, h2, h3, h4⟩
  have hvmem : v ∈ E ++ ((v :: R) ++ nf) := by
    refine List.mem_append_right _ ?_
    exact List.mem_append_left _ (List.mem_cons_self _ _)
  rcases (h3 v).mp hvmem with ⟨hvn, hvsrc⟩
  have hvE : v ∉ E := by
    rcases List.nodup_append.mp h2 with ⟨_, _, hdisj⟩
    intro hvE2
    exact hdisj hvE2 (List.mem_append_left _ (List.mem_cons_self _ _))
  rcases bumpUsers_go d (d.users v) dn nf with ⟨np, hfold, hmem, hnd⟩
  have hbu : bumpUsers d v (nf, dn) = (nf ++ np, fun u => dn u + (d.users v).count u) :=
    hfold
  rw [hbu]
  have hcnt := count_users_sources hok
  have hrngU := hok.2.2.2.1
  -- the new counter value is the filter count over `E ++ [v]`
  have hdn2 : ∀ u, dn u + (d.users v).count u
      = ((d.sources u).filter (fun w => decide (w ∈ E ++ [v]))).length := by
    intro u
    rw [h1 u, filter_mem_insert E v hvE (d.sources u), hcnt u v]
  -- crossing characterization in terms of source sets
  have hcross : ∀ u, u ∈ np ↔
      (¬ ∀ w ∈ d.sources u, w ∈ E) ∧ (∀ w ∈ d.sources u, w ∈ E ++ [v]) := by
    intro u
    rw [hmem u]
    constructor
    · rintro ⟨hlt, hge⟩
      have hle := List.length_filter_le (fun w => decide (w ∈ E ++ [v])) (d.sources u)
      have hdu := hdn2 u
      have heq : ((d.sources u).filter (fun w => decide (w ∈ E ++ [v]))).length
          = (d.sources u).length := by
        omega
      refine ⟨?_, ?_⟩
      · intro hall
        rw [h1 u] at hlt
        rw [filter_mem_all (by intro x hx; exact hall x hx)] at hlt
        omega
      · intro w hw
        have := (filter_len_eq_iff _ (d.sources u)).mp heq w hw
        simpa using this
    · rintro ⟨hnall, hall⟩
      have heq : ((d.sources u).filter (fun w => decide (w ∈ E ++ [v]))).length
          = (d.sources u).length :=
        filter_mem_all hall
      constructor
      · rw [h1 u]
        push_neg at hnall
        rcases hnall with ⟨w, hwmem, hwE⟩
        exact filter_mem_lt hwmem hwE
      · rw [hdn2 u, heq]
  have hfresh : ∀ u ∈ np, u ∉ E ++ ((v :: R) ++ nf) := by
    intro u hu hmem2
    rcases (hcross u).mp hu with ⟨hnall, _⟩
    exact hnall ((h3 u).mp hmem2).2
  have hnpn : ∀ u ∈ np, u < d.n := by
    intro u hu
    rcases (hmem u).mp hu with ⟨hlt, hge⟩
    have hcnt0 : 0 < (d.users v).count u := by omega
    exact hrngU v (List.mem_range.mpr hvn) u (List.count_pos_iff.mp hcnt0)
  -- the new state's node list is a permutation of the old one plus `np`
  have hperm : ((E ++ [v]) ++ (R ++ (nf ++ np))).Perm
      ((E ++ ((v :: R) ++ nf)) ++ np) := by
    refine (Multiset.coe_eq_coe).mp ?_
    have hvR : (v :: R) = [v] ++ R := rfl
    rw [hvR]
    push_cast [← Multiset.coe_add]
    ac_rfl
  refine ⟨?_, ?_, ?_, ?_⟩
  · intro u
    exact hdn2 u
  · rw [hperm.nodup_iff]
    rw [List.nodup_append]
    exact ⟨h2, hnd, fun a ha hb => hfresh a hb ha⟩
  · intro u
    rw [hperm.mem_iff]
    constructor
    · intro hu
      rcases List.mem_append.mp hu with hu | hu
      · rcases (h3 u).mp hu with ⟨hun, hall⟩
        exact ⟨hun, fun w hw => List.mem_append_left _ (hall w hw)⟩
      · rcases (hcross u).mp hu with ⟨_, hall⟩
        exact ⟨hnpn u hu, hall⟩
    · rintro ⟨hun, hall⟩
      by_cases hE : ∀ w ∈ d.sources u, w ∈ E
      · exact List.mem_append_left _ ((h3 u).mpr ⟨hun, hE⟩)
      · exact List.mem_append_right _ ((hcross u).mpr ⟨hE, hall⟩)
  · intro p s u hsplit w hw
    rcases split_append_singleton hsplit with ⟨hp, hu, _⟩ | ⟨s2, hE, _⟩
    · subst hp; subst hu
      exact hvsrc w hw
    · exact h4 p s2 u hE w hw

/-- Folding `bumpUsers` over a whole frontier layer moves the layer into
`emitted`. -/
theorem processFrontier_go {d : Dag} {rank : Nat → Nat} (hok : DagOk d rank) :
    ∀ (L E nf : List Nat) (dn : Nat → Nat),
      KahnInv d E (L ++ nf) dn →
      KahnInv d (E ++ L)
        (L.foldl (fun st v => bumpUsers d v st) (nf, dn)).1
        (L.foldl (fun st v => bumpUsers d v st) (nf, dn)).2 := by
  intro L
  induction L with
  | nil =>
    intro E nf dn h
    simpa using h
  | cons v R ih =>
    intro E nf dn h
    have hstep := kahn_step hok (R := R) h
    have := ih (E ++ [v]) (bumpUsers d v (nf, dn)).1 (bumpUsers d v (nf, dn)).2 hstep
    simpa [List.foldl_cons, List.append_assoc] using this

/-- The `top_sort` while loop: given the invariant and enough fuel, the
flattened emitted layers complete the run with an empty frontier. -/
theorem topSortLoop_spec {d : Dag} {rank : Nat → Nat} (hok : DagOk d rank) :
    ∀ (fuel : Nat) (E free : List Nat) (dn : Nat → Nat),
      KahnInv d E free dn →
      d.n + 1 ≤ fuel + E.length →
      ∃ dn2, KahnInv d (E ++ (topSortLoop d free dn fuel).flatten) [] dn2 := by
  intro fuel
  induction fuel with
  | zero =>
    intro E free dn hinv hfuel
    rcases hinv with ⟨_, h2, h3, _⟩
    have hsub : E ⊆ List.range d.n := by
      intro u hu
      exact List.mem_range.mpr ((h3 u).mp (List.mem_append_left _ hu)).1
    have hlen : E.length ≤ d.n := by
      have := (List.subperm_of_subset (List.Nodup.of_append_left h2) hsub).length_le
      simpa using this
    omega
  | succ fuel ih =>
    intro E free dn hinv hfuel
    rw [topSortLoop]
    by_cases hfree : free.isEmpty
    · rw [if_pos hfree]
      refine ⟨dn, ?_⟩
      have : free = [] := List.isEmpty_iff.mp hfree
      subst this
      simpa using hinv
    · rw [if_neg hfree]
      have hinv2 : KahnInv d E (free ++ []) dn := by simpa using hinv
      have hstep := processFrontier_go hok free E [] dn hinv2
      have hflen : 1 ≤ free.length := by
        rcases free with _ | ⟨v, R⟩
        · simp at hfree
        · simp
      have := ih (E ++ free) (processFrontier d free dn).1 (processFrontier d free dn).2
        hstep (by simp; omega)
      simpa [List.append_assoc] using this

/-- The initial state of `top_sort` satisfies the invariant. -/
theorem kahnInv_init {d : Dag} {rank : Nat → Nat} (hok : DagOk d rank) :
    KahnInv d [] d.inputs (fun _ => 0) := by
  have hinp := hok.2.2.2.2.2.1
  refine ⟨?_, ?_, ?_, ?_⟩
  · intro u
    simp
  · rw [hinp]
    simp only [List.nil_append]
    exact (List.nodup_range d.n).filter _
  · intro u
    rw [hinp]
    simp only [List.nil_append, List.mem_filter, List.mem_range]
    constructor
    · rintro ⟨hun, hemp⟩
      refine ⟨hun, ?_⟩
      intro v hv
      have hnil : d.sources u = [] := List.isEmpty_iff.mp (by simpa using hemp)
      rw [hnil] at hv
      simp at hv
    · rintro ⟨hun, hall⟩
      refine ⟨hun, ?_⟩
      have : d.sources u = [] := by
        rcases hd : d.sources u with _ | ⟨v, rest⟩
        · rfl
        · have := hall v (by rw [hd]; exact List.mem_cons_self _ _)
          simp at this
      simp [this]
  · intro p s u hsplit
    simp at hsplit

/-- Any complete Kahn run (empty frontier) lists every node: induction on
the acyclicity rank. -/
theorem kahn_complete {d : Dag} {rank : Nat → Nat} (hok : DagOk d rank)
    {E : List Nat} {dn : Nat → Nat} (hinv : KahnInv d E [] dn) :
    ∀ k u, rank u < k → u < d.n → u ∈ E := by
  rcases hinv with ⟨_, _, h3, _⟩
  have hrngS := hok.2.2.2.2.1
  have hrk := hok.2.2.2.2.2.2.2
  intro k
  induction k with
  | zero => intro u h; omega
  | succ k ih =>
    intro u hru hun
    have : u ∈ E ++ [] := by
      refine (h3 u).mpr ⟨hun, ?_⟩
      intro v hv
      have hvn : v < d.n := hrngS u (List.mem_range.mpr hun) v hv
      have hvu : u ∈ d.users v := sources_mem_users hok hv
      have hlt : rank v < rank u := hrk v (List.mem_range.mpr hvn) u hvu
      exact ih v (by omega) hvn
    simpa using this

/-- `Dag::top_sort` flattened: a duplicate-free permutation of `0..n` whose
every prefix contains the sources of the next element. -/
theorem topSort_spec {d : Dag} {rank : Nat → Nat} (hok : DagOk d rank) :
    ((topSort d).flatten).Perm (List.range d.n) ∧
    (∀ p s u, (topSort d).flatten = p ++ u :: s → ∀ v ∈ d.sources u, v ∈ p) := by
  have hinit := kahnInv_init hok
  rcases topSortLoop_spec hok (d.n + 1) [] d.inputs (fun _ => 0) hinit (by simp)
    with ⟨dn2, hfin⟩
  rw [List.nil_append] at hfin
  have hfin2 : KahnInv d (topSort d).flatten [] dn2 := by
    rw [topSort]
    exact hfin
  have hcomp := kahn_complete hok hfin2
  rcases hfin2 with ⟨_, h2, h3, h4⟩
  have hnd : ((topSort d).flatten).Nodup := by simpa using h2
  refine ⟨?_, h4⟩
  rw [List.perm_ext_iff_of_nodup hnd (List.nodup_range d.n)]
  intro u
  rw [List.mem_range]
  constructor
  · intro hu
    exact ((h3 u).mp (by simpa using hu)).1
  · intro hu
    exact hcomp (rank u + 1) u (by omega) hu

/-- Prefix-closure plus freedom from duplicates gives the index form of a
topological order: every edge source sits strictly earlier. -/
theorem topo_indexOf {d : Dag} {rank : Nat → Nat} (hok : DagOk d rank)
    {L : List Nat} (hperm : L.Perm (List.range d.n))
    (hsplit : ∀ p s u, L = p ++ u :: s → ∀ v ∈ d.sources u, v ∈ p) :
    ∀ v ∈ List.range d.n, ∀ u ∈ d.users v, L.indexOf v < L.indexOf u := by
  have hnd : L.Nodup := hperm.nodup_iff.mpr (List.nodup_range d.n)
  have hrngU := hok.2.2.2.1
  intro v hv u hu
  have hvn : v < d.n := List.mem_range.mp hv
  have hun : u < d.n := hrngU v hv u hu
  have huL : u ∈ L := hperm.mem_iff.mpr (List.mem_range.mpr hun)
  rcases List.append_of_mem huL with ⟨p, s, hL⟩
  have hvs : v ∈ d.sources u := by
    have hc := count_users_sources hok u v
    have : 0 < (d.users v).count u := List.count_pos_iff.mpr hu
    exact List.count_pos_iff.mp (by omega)
  have hvp : v ∈ p := hsplit p s u hL v hvs
  have hup : u ∉ p := by
    intro hup
    have : ¬ (p ++ u :: s).Nodup := by
      intro hnd2
      rcases List.nodup_append.mp hnd2 with ⟨_, _, hdisj⟩
      exact hdisj hup (List.mem_cons_self _ _)
    rw [← hL] at this
    exact this hnd
  rw [hL]
  rw [List.indexOf_append_of_mem hvp, List.indexOf_append_of_not_mem hup]
  have := List.indexOf_lt_length.mpr hvp
  simp
  omega

/-! ## Helper lemmas: `efficient_sort` bucket maps and core queues -/

theorem perm_append_cancel {a b x : List Nat} (h : (a ++ x).Perm (b ++ x)) :
    a.Perm b := by
  refine (Multiset.coe_eq_coe).mp ?_
  have h2 := (Multiset.coe_eq_coe).mpr h
  push_cast [← Multiset.coe_add] at h2
  exact add_right_cancel h2

theorem perm_pull_last {a b x : List Nat} {t : Nat}
    (h : (a ++ (x ++ [t])).Perm (b ++ x)) : (a ++ [t]).Perm b := by
  refine perm_append_cancel (x := x) ?_
  refine List.Perm.trans ?_ h
  refine (Multiset.coe_eq_coe).mp ?_
  push_cast [← Multiset.coe_add]
  ac_rfl

theorem perm_push_last {a b x : List Nat} {t : Nat}
    (h : (a ++ x).Perm (b ++ (x ++ [t]))) : a.Perm (b ++ [t]) := by
  refine perm_append_cancel (x := x) ?_
  refine List.Perm.trans h ?_
  refine (Multiset.coe_eq_coe).mp ?_
  push_cast [← Multiset.coe_add]
  ac_rfl

theorem bucketIds_append (a b : List (Nat × List Nat)) :
    bucketIds (a ++ b) = bucketIds a ++ bucketIds b := by
  simp [bucketIds]

theorem bucketIds_bInsert : ∀ (m : List (Nat × List Nat)) (k v : Nat),
    (bucketIds (bInsert m k v)).Perm (bucketIds m ++ [v]) := by
  intro m
  induction m with
  | nil => intro k v; simp [bInsert, bucketIds]
  | cons b rest ih =>
    intro k v
    rcases b with ⟨k0, l0⟩
    rw [bInsert]
    by_cases h1 : k < k0
    · rw [if_pos h1]
      simp only [bucketIds, List.map_cons, List.flatten_cons]
      refine (Multiset.coe_eq_coe).mp ?_
      push_cast [← Multiset.coe_add]
      ac_rfl
    · rw [if_neg h1]
      by_cases h2 : k = k0
      · rw [if_pos h2]
        simp only [bucketIds, List.map_cons, List.flatten_cons]
        refine (Multiset.coe_eq_coe).mp ?_
        push_cast [← Multiset.coe_add]
        ac_rfl
      · rw [if_neg h2]
        simp only [bucketIds, List.map_cons, List.flatten_cons]
        have := ih k v
        simp only [bucketIds] at this
        have h3 := this.append_left l0
        simpa [List.append_assoc] using h3

theorem bInsert_key_mem : ∀ (m : List (Nat × List Nat)) (k v : Nat),
    k ∈ (bInsert m k v).map Prod.fst := by
  intro m
  induction m with
  | nil => intro k v; simp [bInsert]
  | cons b rest ih =>
    intro k v
    rcases b with ⟨k0, l0⟩
    rw [bInsert]
    by_cases h1 : k < k0
    · rw [if_pos h1]; simp
    · rw [if_neg h1]
      by_cases h2 : k = k0
      · rw [if_pos h2]; simp [h2]
      · rw [if_neg h2]
        simpa using Or.inr (ih k v)

theorem bInsert_keys_mono : ∀ (m : List (Nat × List Nat)) (k v a : Nat),
    a ∈ m.map Prod.fst → a ∈ (bInsert m k v).map Prod.fst := by
  intro m
  induction m with
  | nil => intro k v a ha; simp at ha
  | cons b rest ih =>
    intro k v a ha
    rcases b with ⟨k0, l0⟩
    rw [bInsert]
    by_cases h1 : k < k0
    · rw [if_pos h1]; simpa using Or.inr (by simpa using ha)
    · rw [if_neg h1]
      by_cases h2 : k = k0
      · rw [if_pos h2]; simpa using ha
      · rw [if_neg h2]
        simp only [List.map_cons, List.mem_cons] at ha ⊢
        rcases ha with ha | ha
        · exact Or.inl ha
        · exact Or.inr (ih k v a ha)

theorem bInsert_nonempty : ∀ (m : List (Nat × List Nat)) (k v : Nat),
    (∀ b ∈ m, b.2 ≠ []) → ∀ b ∈ bInsert m k v, b.2 ≠ [] := by
  intro m
  induction m with
  | nil =>
    intro k v _ b hb
    rw [bInsert] at hb
    simp at hb
    rw [hb]
    simp
  | cons b0 rest ih =>
    intro k v hm b hb
    rcases b0 with ⟨k0, l0⟩
    rw [bInsert] at hb
    by_cases h1 : k < k0
    · rw [if_pos h1] at hb
      rcases List.mem_cons.mp hb with hb | hb
      · rw [hb]; simp
      · exact hm b hb
    · rw [if_neg h1] at hb
      by_cases h2 : k = k0
      · rw [if_pos h2] at hb
        rcases List.mem_cons.mp hb with hb | hb
        · rw [hb]; simp
        · exact hm b (List.mem_cons_of_mem _ hb)
      · rw [if_neg h2] at hb
        rcases List.mem_cons.mp hb with hb | hb
        · rw [hb]
          exact hm (k0, l0) (List.mem_cons_self _ _)
        · exact ih k v (fun b2 hb2 => hm b2 (List.mem_cons_of_mem _ hb2)) b hb

theorem bInsert_length : ∀ (m : List (Nat × List Nat)) (k v : Nat),
    (bInsert m k v).length ≤ m.length + 1 := by
  intro m
  induction m with
  | nil => intro k v; simp [bInsert]
  | cons b rest ih =>
    intro k v
    rcases b with ⟨k0, l0⟩
    rw [bInsert]
    by_cases h1 : k < k0
    · rw [if_pos h1]; simp
    · rw [if_neg h1]
      by_cases h2 : k = k0
      · rw [if_pos h2]; simp
      · rw [if_neg h2]
        have := ih k v
        simp only [List.length_cons]
        omega

theorem popLastBucket_spec {m : List (Nat × List Nat)} {k : Nat} {v : List Nat}
    (h : m.getLast? = some (k, v)) (hv : v ≠ []) :
    bucketIds m = bucketIds (popLastBucket m) ++ [v.getLastD 0] := by
  have hm : m ≠ [] := by
    intro hm
    rw [hm] at h
    simp at h
  have hdl : m.dropLast ++ [m.getLast hm] = m := List.dropLast_append_getLast hm
  have hlast : m.getLast hm = (k, v) := by
    have := List.getLast?_eq_getLast m hm
    rw [this] at h
    exact Option.some.inj h
  have hvD : v.getLastD 0 = v.getLast hv := by
    rw [List.getLastD_eq_getLast?, List.getLast?_eq_getLast v hv]
    rfl
  have hvd : v.dropLast ++ [v.getLast hv] = v := List.dropLast_append_getLast hv
  simp only [popLastBucket, h]
  by_cases hve : v.dropLast.isEmpty
  · rw [if_pos hve]
    have hv2 : v.dropLast = [] := List.isEmpty_iff.mp hve
    conv_lhs => rw [← hdl]
    rw [bucketIds_append, hlast]
    simp only [bucketIds, List.map_cons, List.map_nil, List.flatten_cons,
      List.flatten_nil, List.append_nil]
    rw [hvD]
    congr 1
    have h5 : v = v.dropLast ++ [v.getLast hv] := hvd.symm
    rw [hv2] at h5
    simpa using h5
  · rw [if_neg hve]
    conv_lhs => rw [← hdl]
    rw [bucketIds_append, bucketIds_append, hlast]
    simp only [bucketIds, List.map_cons, List.map_nil, List.flatten_cons,
      List.flatten_nil, List.append_nil]
    rw [hvD, List.append_assoc]
    congr 1
    exact hvd.symm

theorem popLastBucket_nonempty {m : List (Nat × List Nat)}
    (h : ∀ b ∈ m, b.2 ≠ []) : ∀ b ∈ popLastBucket m, b.2 ≠ [] := by
  intro b hb
  rcases hg : m.getLast? with _ | ⟨k, v⟩
  · simp only [popLastBucket, hg] at hb
    exact h b hb
  · simp only [popLastBucket, hg] at hb
    by_cases hve : v.dropLast.isEmpty
    · rw [if_pos hve] at hb
      exact h b (List.dropLast_sublist m |>.mem hb)
    · rw [if_neg hve] at hb
      rcases List.mem_append.mp hb with hb | hb
      · exact h b (List.dropLast_sublist m |>.mem hb)
      · simp at hb
        rw [hb]
        intro hc
        simp only [] at hc
        rw [hc] at hve
        simp at hve

theorem popLastBucket_ne_nil {m : List (Nat × List Nat)}
    (h : popLastBucket m ≠ []) : m ≠ [] := by
  intro hm
  rw [hm] at h
  exact h rfl

theorem canonOps_mem_go : ∀ (l acc : List Operation) (a : Operation),
    (a ∈ acc ∨ a ∈ l) →
    a ∈ l.foldl (fun acc op => if op ∈ acc then acc else acc ++ [op]) acc := by
  intro l
  induction l with
  | nil =>
    intro acc a ha
    rcases ha with ha | ha
    · exact ha
    · simp at ha
  | cons op rest ih =>
    intro acc a ha
    rw [List.foldl_cons]
    by_cases hop : op ∈ acc
    · rw [if_pos hop]
      refine ih acc a ?_
      rcases ha with ha | ha
      · exact Or.inl ha
      · rcases List.mem_cons.mp ha with ha | ha
        · rw [ha]; exact Or.inl hop
        · exact Or.inr ha
    · rw [if_neg hop]
      refine ih (acc ++ [op]) a ?_
      rcases ha with ha | ha
      · exact Or.inl (List.mem_append_left _ ha)
      · rcases List.mem_cons.mp ha with ha | ha
        · rw [ha]
          exact Or.inl (List.mem_append_right _ (List.mem_cons_self _ _))
        · exact Or.inr ha

/-- Every opcode appears in every completed iteration order. -/
theorem canonOps_complete (l : List Operation) (op : Operation) :
    op ∈ canonOps l := by
  rw [canonOps]
  refine canonOps_mem_go _ [] op (Or.inr ?_)
  refine List.mem_append_right _ ?_
  cases op <;> simp

theorem coreUpdate_subset (q : List (Nat × Nat)) (t : Nat) :
    ∀ p ∈ coreUpdate q t, p ∈ q := by
  intro p hp
  exact (List.dropWhile_sublist _).mem hp

theorem esSetCoreQ_fields (st : ESState) (c : ChipType) (q : List (Nat × Nat)) :
    (st.setCoreQ c q).res = st.res ∧ (st.setCoreQ c q).active = st.active ∧
    (st.setCoreQ c q).cycles = st.cycles ∧ (st.setCoreQ c q).free = st.free ∧
    (st.setCoreQ c q).freeKeys = st.freeKeys ∧ (st.setCoreQ c q).done = st.done := by
  cases c <;> exact ⟨rfl, rfl, rfl, rfl, rfl, rfl⟩

theorem esSync_queues (st : ESState) (c : ChipType) (tm : Nat) :
    (∀ p ∈ (st.setCoreQ c (coreUpdate (st.coreQ c) tm)).matQ, p ∈ st.matQ) ∧
    (∀ p ∈ (st.setCoreQ c (coreUpdate (st.coreQ c) tm)).scaQ, p ∈ st.scaQ) := by
  cases c
  · exact ⟨fun p hp => coreUpdate_subset _ _ p hp, fun p hp => hp⟩
  · exact ⟨fun p hp => hp, fun p hp => coreUpdate_subset _ _ p hp⟩

theorem mem_bucketIds {m : List (Nat × List Nat)} {b : Nat × List Nat} {x : Nat}
    (hb : b ∈ m) (hx : x ∈ b.2) : x ∈ bucketIds m := by
  simp only [bucketIds, List.mem_flatten, List.mem_map]
  exact ⟨b.2, ⟨b, hb, rfl⟩, hx⟩

theorem bucketIds_subset_freeIds (st : ESState) (op : Operation) :
    ∀ x ∈ bucketIds (st.free op), x ∈ st.freeIds := by
  cases op <;>
    · intro x hx
      simp only [ESState.freeIds, List.mem_append]
      tauto

/-- Replacing one opcode's bucket map changes `freeIds` by exactly swapping
that opcode's ids. -/
theorem freeIds_updateFree {st st2 : ESState} {op : Operation}
    {L : List (Nat × List Nat)} (h : st2.free = updateFree st.free op L) :
    (st2.freeIds ++ bucketIds (st.free op)).Perm (st.freeIds ++ bucketIds L) := by
  cases op <;>
    · simp only [ESState.freeIds, h, updateFree]
      simp only [reduceCtorEq, if_true, if_false, ite_true, ite_false, reduceIte]
      refine (Multiset.coe_eq_coe).mp ?_
      push_cast [← Multiset.coe_add]
      ac_rfl

/-- A failed dispatch scan only syncs core queues: every other field is
unchanged and the queues only lose elements. -/
theorem dispatchGo_none (costs : List Nat) : ∀ (l : List Operation) (st st2 : ESState),
    dispatchGo costs st l = (none, st2) →
    st2.res = st.res ∧ st2.active = st.active ∧ st2.cycles = st.cycles ∧
    st2.free = st.free ∧ st2.freeKeys = st.freeKeys ∧ st2.done = st.done ∧
    (∀ p ∈ st2.matQ, p ∈ st.matQ) ∧ (∀ p ∈ st2.scaQ, p ∈ st.scaQ) := by
  intro l
  induction l with
  | nil =>
    intro st st2 h
    simp only [dispatchGo, Prod.mk.injEq] at h
    rcases h with ⟨-, rfl⟩
    exact ⟨rfl, rfl, rfl, rfl, rfl, rfl, fun p hp => hp, fun p hp => hp⟩
  | cons op rest ih =>
    intro st st2 h
    simp only [dispatchGo] at h
    by_cases hk : op ∈ st.freeKeys
    · rw [if_pos hk] at h
      by_cases hne : (st.free op).isEmpty
      · rw [if_pos hne] at h
        exact ih st st2 h
      · rw [if_neg hne] at h
        have hnodes : st.free op ≠ [] := by
          intro hc
          rw [hc] at hne
          simp at hne
        rcases esSetCoreQ_fields st (chipOf op)
          (coreUpdate (st.coreQ (chipOf op)) st.cycles) with ⟨e1, e2, e3, e4, e5, e6⟩
        rcases esSync_queues st (chipOf op) st.cycles with ⟨q1, q2⟩
        split at h
        · -- nodes.getLast? = none: impossible, nodes ≠ []
          rename_i heq
          rcases List.eq_nil_or_concat (st.free op) with hcon | ⟨ys, y, hcon⟩
          · exact absurd hcon hnodes
          · rw [hcon, List.concat_eq_append, List.getLast?_concat] at heq
            simp at heq
        · split at h
          · -- try_add succeeded: contradicts the `none` result
            simp at h
          · rcases ih _ st2 h with ⟨f1, f2, f3, f4, f5, f6, f7, f8⟩
            exact ⟨f1.trans e1, f2.trans e2, f3.trans e3, f4.trans e4, f5.trans e5,
              f6.trans e6, fun p hp => q1 p (f7 p hp), fun p hp => q2 p (f8 p hp)⟩
    · rw [if_neg hk] at h
      exact ih st st2 h

theorem esCoreQ_set_same (st : ESState) (c : ChipType) (q : List (Nat × Nat)) :
    (st.setCoreQ c q).coreQ c = q := by
  cases c <;> rfl

theorem esCoreQ_subset_both (st : ESState) (c : ChipType) :
    ∀ x ∈ st.coreQ c, x ∈ st.matQ ++ st.scaQ := by
  cases c
  · exact fun x hx => List.mem_append_left _ hx
  · exact fun x hx => List.mem_append_right _ hx

/-- If the scan fails while every enqueued completion is already reached,
then every scanned opcode's bucket map is empty: a nonempty bucket would
have dispatched into the drained core. -/
theorem dispatchGo_none_empty (costs : List Nat) :
    ∀ (l : List Operation) (st st2 : ESState),
    dispatchGo costs st l = (none, st2) →
    (∀ p ∈ st.matQ ++ st.scaQ, p.2 ≤ st.cycles) →
    ∀ op ∈ l, op ∈ st.freeKeys → st.free op = [] := by
  intro l
  induction l with
  | nil =>
    intro st st2 _ _ op hop
    simp at hop
  | cons op0 rest ih =>
    intro st st2 h hq op hop hopK
    simp only [dispatchGo] at h
    by_cases hk : op0 ∈ st.freeKeys
    · rw [if_pos hk] at h
      by_cases hne : (st.free op0).isEmpty
      · rw [if_pos hne] at h
        rcases List.mem_cons.mp hop with rfl | hop
        · exact List.isEmpty_iff.mp hne
        · exact ih st st2 h hq op hop hopK
      · rw [if_neg hne] at h
        exfalso
        have hnodes : st.free op0 ≠ [] := by
          intro hc
          rw [hc] at hne
          simp at hne
        have hsync : (st.setCoreQ (chipOf op0)
            (coreUpdate (st.coreQ (chipOf op0)) st.cycles)).coreQ (chipOf op0) = [] := by
          rw [esCoreQ_set_same, coreUpdate, List.dropWhile_eq_nil_iff]
          intro x hx
          have := hq x (esCoreQ_subset_both st (chipOf op0) x hx)
          simpa using this
        split at h
        · rename_i heq
          rcases List.eq_nil_or_concat (st.free op0) with hcon | ⟨ys, y, hcon⟩
          · exact absurd hcon hnodes
          · rw [hcon, List.concat_eq_append, List.getLast?_concat] at heq
            simp at heq
        · split at h
          · simp at h
          · rename_i hqcons
            rw [hsync] at hqcons
            simp at hqcons
    · rw [if_neg hk] at h
      rcases List.mem_cons.mp hop with rfl | hop
      · exact absurd hopK hk
      · exact ih st st2 h hq op hop hopK

/-- A successful dispatch: some opcode's largest-cost bucket loses its last
id `t`, which is appended to `res`, scheduled on its (previously drained)
core, and recorded in `active` at its completion time. -/
theorem dispatchGo_some (costs : List Nat) :
    ∀ (l : List Operation) (st st2 : ESState) (t : Nat),
    dispatchGo costs st l = (some t, st2) →
    ∃ op k v, op ∈ st.freeKeys ∧ (st.free op).getLast? = some (k, v) ∧
      t = v.getLastD 0 ∧
      st2.res = st.res ++ [t] ∧
      st2.active = bInsert st.active (st.cycles + getCost op) t ∧
      st2.cycles = st.cycles ∧
      st2.free = updateFree st.free op (popLastBucket (st.free op)) ∧
      st2.freeKeys = st.freeKeys ∧ st2.done = st.done ∧
      (∀ p ∈ st2.matQ ++ st2.scaQ,
        p ∈ st.matQ ++ st.scaQ ∨ p = (t, st.cycles + getCost op)) := by
  intro l
  induction l with
  | nil =>
    intro st st2 t h
    simp [dispatchGo] at h
  | cons op0 rest ih =>
    intro st st2 t h
    simp only [dispatchGo] at h
    by_cases hk : op0 ∈ st.freeKeys
    · rw [if_pos hk] at h
      by_cases hne : (st.free op0).isEmpty
      · rw [if_pos hne] at h
        exact ih st st2 t h
      · rw [if_neg hne] at h
        have hnodes : st.free op0 ≠ [] := by
          intro hc
          rw [hc] at hne
          simp at hne
        rcases esSetCoreQ_fields st (chipOf op0)
          (coreUpdate (st.coreQ (chipOf op0)) st.cycles) with ⟨e1, e2, e3, e4, e5, e6⟩
        rcases esSync_queues st (chipOf op0) st.cycles with ⟨q1, q2⟩
        split at h
        · rename_i heq
          rcases List.eq_nil_or_concat (st.free op0) with hcon | ⟨ys, y, hcon⟩
          · exact absurd hcon hnodes
          · rw [hcon, List.concat_eq_append, List.getLast?_concat] at heq
            simp at heq
        · rename_i w v heq
          split at h
          · -- try_add succeeded on the drained core
            rename_i hqnil
            simp only [Prod.mk.injEq] at h
            rcases h with ⟨hteq, hst2⟩
            have ht : t = v.getLastD 0 := (Option.some.inj hteq).symm
            subst ht
            refine ⟨op0, w, v, hk, heq, rfl, ?_⟩
            rcases hchip : chipOf op0 with _ | _ <;>
              · rw [hchip] at hst2
                simp only [ESState.setCoreQ] at hst2
                subst hst2
                rw [hchip] at hqnil
                simp only [ESState.setCoreQ, ESState.coreQ] at hqnil
                refine ⟨rfl, rfl, rfl, rfl, rfl, rfl, ?_⟩
                intro p hp
                simp only [List.mem_append] at hp
                rcases hp with hp | hp
                · first
                  | (simp only [List.mem_singleton] at hp
                     exact Or.inr hp)
                  | exact Or.inl (List.mem_append_left _ hp)
                · first
                  | (simp only [List.mem_singleton] at hp
                     exact Or.inr hp)
                  | exact Or.inl (List.mem_append_right _ hp)
          · rcases ih _ st2 t h with
              ⟨op2, k2, v2, f0, f1, f2, f3, f4, f5, f6, f7, f8, f9⟩
            rw [e5] at f0
            have e4o : ∀ o, (st.setCoreQ (chipOf op0)
                (coreUpdate (st.coreQ (chipOf op0)) st.cycles)).free o = st.free o :=
              fun o => congrFun e4 o
            rw [e4o] at f1
            rw [e1] at f3
            rw [e2, e3] at f4
            rw [e3] at f5
            rw [e4o] at f6
            rw [e4] at f6
            rw [e5] at f7
            rw [e6] at f8
            refine ⟨op2, k2, v2, f0, f1, f2, f3, f4, f5, f6, f7, f8, ?_⟩
            intro p hp
            rcases f9 p hp with hp2 | hp2
            · simp only [List.mem_append] at hp2
              rcases hp2 with hp2 | hp2
              · exact Or.inl (List.mem_append_left _ (q1 p hp2))
              · exact Or.inl (List.mem_append_right _ (q2 p hp2))
            · rw [e3] at hp2
              exact Or.inr hp2
    · rw [if_neg hk] at h
      exact ih st st2 t h

/-- The retire fold of `efficient_sort`: counters gain the occurrence
counts, the crossing users land in their opcode buckets (so `freeIds`
gains exactly the crossing set), and nothing else changes. -/
theorem retireTask_go (d : Dag) (costs : List Nat) :
    ∀ (rest : List Nat) (st st2 : ESState),
      rest.foldl
          (fun st user =>
            let dn := bump st.done user
            let st := { st with done := dn }
            if dn user = (d.sources user).length then
              let op := (d.op user).getD .VAdd
              { st with
                free := updateFree st.free op
                  (bInsert (st.free op) (costs.getD user 0) user)
                freeKeys := if op ∈ st.freeKeys then st.freeKeys
                  else st.freeKeys ++ [op] }
            else st) st = st2 →
      (∀ op, ∀ b ∈ st.free op, b.2 ≠ []) →
      (∀ op, st.free op ≠ [] → op ∈ st.freeKeys) →
      ∃ np : List Nat,
        st2.res = st.res ∧ st2.cycles = st.cycles ∧ st2.active = st.active ∧
        st2.matQ = st.matQ ∧ st2.scaQ = st.scaQ ∧
        (∀ u, st2.done u = st.done u + rest.count u) ∧
        st2.freeIds.Perm (st.freeIds ++ np) ∧
        (∀ u, u ∈ np ↔ (st.done u < (d.sources u).length ∧
          (d.sources u).length ≤ st.done u + rest.count u)) ∧
        np.Nodup ∧
        (∀ op, ∀ b ∈ st2.free op, b.2 ≠ []) ∧
        (∀ op, st2.free op ≠ [] → op ∈ st2.freeKeys) := by
  intro rest
  induction rest with
  | nil =>
    intro st st2 hfold h7 h8
    rw [List.foldl_nil] at hfold
    subst hfold
    refine ⟨[], rfl, rfl, rfl, rfl, rfl, ?_, by simp, ?_, List.nodup_nil, h7, h8⟩
    · intro u; simp
    · intro u
      simp only [List.not_mem_nil, false_iff, List.count_nil]
      omega
  | cons u0 rest ih =>
    intro st st2 hfold h7 h8
    simp only [List.foldl_cons] at hfold
    have hbself : bump st.done u0 u0 = st.done u0 + 1 := by simp [bump]
    have hbne : ∀ u, u ≠ u0 → bump st.done u0 u = st.done u := by
      intro u hu; simp [bump, hu]
    have hcself : (u0 :: rest).count u0 = rest.count u0 + 1 := List.count_cons_self u0 rest
    have hcne : ∀ u, u ≠ u0 → (u0 :: rest).count u = rest.count u :=
      fun u hu => List.count_cons_of_ne hu rest
    by_cases hc : bump st.done u0 u0 = (d.sources u0).length
    · rw [if_pos hc] at hfold
      have h7x : ∀ op, ∀ b ∈ updateFree st.free ((d.op u0).getD Operation.VAdd)
          (bInsert (st.free ((d.op u0).getD Operation.VAdd)) (costs.getD u0 0) u0) op,
          b.2 ≠ [] := by
        intro op b hb
        rw [updateFree] at hb
        by_cases ho : op = (d.op u0).getD Operation.VAdd
        · rw [if_pos ho] at hb
          exact bInsert_nonempty _ _ _ (h7 _) b hb
        · rw [if_neg ho] at hb
          exact h7 op b hb
      have h8x : ∀ op, updateFree st.free ((d.op u0).getD Operation.VAdd)
          (bInsert (st.free ((d.op u0).getD Operation.VAdd)) (costs.getD u0 0) u0) op ≠ [] →
          op ∈ (if (d.op u0).getD Operation.VAdd ∈ st.freeKeys then st.freeKeys
            else st.freeKeys ++ [(d.op u0).getD Operation.VAdd]) := by
        intro op hne
        rw [updateFree] at hne
        by_cases ho : op = (d.op u0).getD Operation.VAdd
        · rw [ho]
          by_cases hin : (d.op u0).getD Operation.VAdd ∈ st.freeKeys
          · rw [if_pos hin]; exact hin
          · rw [if_neg hin]
            exact List.mem_append_right _ (List.mem_cons_self _ _)
        · rw [if_neg ho] at hne
          have hmem2 := h8 op hne
          by_cases hin : (d.op u0).getD Operation.VAdd ∈ st.freeKeys
          · rw [if_pos hin]; exact hmem2
          · rw [if_neg hin]; exact List.mem_append_left _ hmem2
      rcases ih _ st2 hfold h7x h8x with ⟨np, g1, g2, g3, g4, g5, g6, g7, g8, g9, g10, g11⟩
      have hstep : (ESState.freeIds
          { st with
              done := bump st.done u0
              free := updateFree st.free ((d.op u0).getD Operation.VAdd)
                (bInsert (st.free ((d.op u0).getD Operation.VAdd)) (costs.getD u0 0) u0)
              freeKeys := if (d.op u0).getD Operation.VAdd ∈ st.freeKeys then st.freeKeys
                else st.freeKeys ++ [(d.op u0).getD Operation.VAdd] }).Perm
          (st.freeIds ++ [u0]) := by
        have hupd := @freeIds_updateFree st
          { st with
              done := bump st.done u0
              free := updateFree st.free ((d.op u0).getD Operation.VAdd)
                (bInsert (st.free ((d.op u0).getD Operation.VAdd)) (costs.getD u0 0) u0)
              freeKeys := if (d.op u0).getD Operation.VAdd ∈ st.freeKeys then st.freeKeys
                else st.freeKeys ++ [(d.op u0).getD Operation.VAdd] }
          ((d.op u0).getD Operation.VAdd)
          (bInsert (st.free ((d.op u0).getD Operation.VAdd)) (costs.getD u0 0) u0) rfl
        have hbi := bucketIds_bInsert (st.free ((d.op u0).getD Operation.VAdd))
          (costs.getD u0 0) u0
        refine perm_push_last (x := bucketIds (st.free ((d.op u0).getD Operation.VAdd))) ?_
        refine hupd.trans ?_
        refine (hbi.append_left st.freeIds).trans ?_
        rfl
      have g6x : ∀ u, st2.done u = bump st.done u0 u + rest.count u := g6
      have g8x : ∀ u, u ∈ np ↔ (bump st.done u0 u < (d.sources u).length ∧
          (d.sources u).length ≤ bump st.done u0 u + rest.count u) := g8
      refine ⟨u0 :: np, g1, g2, g3, g4, g5, ?_, ?_, ?_, ?_, g10, g11⟩
      · intro u
        rw [g6x]
        by_cases hu : u = u0
        · subst hu; rw [hbself, hcself]; omega
        · rw [hbne u hu, hcne u hu]
      · refine g7.trans ?_
        have := hstep.append_right np
        refine this.trans ?_
        simp [List.append_assoc]
      · intro u
        by_cases hu : u = u0
        · subst hu
          simp only [List.mem_cons, true_or, true_iff]
          rw [hcself]
          rw [hbself] at hc
          omega
        · simp only [List.mem_cons, hu, false_or]
          rw [g8x u, hbne u hu, hcne u hu]
      · refine List.Pairwise.cons ?_ g9
        intro b hb heq
        subst heq
        have := (g8x u0).mp hb
        rw [hbself] at this hc
        omega
    · rw [if_neg hc] at hfold
      rcases ih _ st2 hfold h7 h8 with ⟨np, g1, g2, g3, g4, g5, g6, g7, g8, g9, g10, g11⟩
      have g6x : ∀ u, st2.done u = bump st.done u0 u + rest.count u := g6
      have g8x : ∀ u, u ∈ np ↔ (bump st.done u0 u < (d.sources u).length ∧
          (d.sources u).length ≤ bump st.done u0 u + rest.count u) := g8
      refine ⟨np, g1, g2, g3, g4, g5, ?_, g7, ?_, g9, g10, g11⟩
      · intro u
        rw [g6x]
        by_cases hu : u = u0
        · subst hu; rw [hbself, hcself]; omega
        · rw [hbne u hu, hcne u hu]
      · intro u
        by_cases hu : u = u0
        · subst hu
          rw [g8x, hbself, hcself]
          rw [hbself] at hc
          constructor
          · rintro ⟨h1, h2⟩; exact ⟨by omega, by omega⟩
          · rintro ⟨h1, h2⟩; exact ⟨by omega, by omega⟩
        · rw [g8x u, hbne u hu, hcne u hu]

theorem esInv_res_le {d : Dag} {st : ESState} {ret pending : List Nat}
    (hinv : ESInv d st ret pending) : st.res.length ≤ d.n := by
  rcases hinv with ⟨_, h2, h3, _⟩
  have hnd : st.res.Nodup := h2.of_append_left
  have hsub : st.res ⊆ List.range d.n := fun u hu =>
    List.mem_range.mpr ((h3 u).mp (List.mem_append_left _ hu)).1
  have := (List.subperm_of_subset hnd hsub).length_le
  simpa using this

/-- A failed dispatch scan preserves the loop invariant. -/
theorem esDispatchNone_step {d : Dag} {costs : List Nat} {st st2 : ESState}
    {ret : List Nat} {l : List Operation}
    (hinv : ESInv d st ret []) (h : dispatchGo costs st l = (none, st2)) :
    ESInv d st2 ret [] := by
  rcases dispatchGo_none costs l st st2 h with ⟨e1, e2, e3, e4, e5, e6, q1, q2⟩
  rcases hinv with ⟨h1, h2, h3, h4, h5, h6, h7, h8⟩
  have hids : st2.freeIds = st.freeIds := by
    simp [ESState.freeIds, e4]
  refine ⟨?_, ?_, ?_, ?_, ?_, ?_, ?_, ?_⟩
  · intro u
    rw [e6]
    exact h1 u
  · rw [e1, hids]
    exact h2
  · intro u
    rw [e1, hids]
    exact h3 u
  · intro p s u hsplit
    rw [e1] at hsplit
    exact h4 p s u hsplit
  · rw [e1, e2]
    exact h5
  · intro p hp
    rw [e2, e3]
    rcases List.mem_append.mp hp with hp | hp
    · exact h6 p (List.mem_append_left _ (q1 p hp))
    · exact h6 p (List.mem_append_right _ (q2 p hp))
  · intro op b hb
    have he := congrFun e4 op
    rw [he] at hb
    exact h7 op b hb
  · intro op hne
    have he := congrFun e4 op
    rw [he] at hne
    rw [e5]
    exact h8 op hne

/-- Popping the earliest completion bucket of `active` into the pending
list preserves the invariant, with the clock advanced to that bucket. -/
theorem esPop_step {d : Dag} {st : ESState} {ret : List Nat} {top : Nat}
    {tasks : List Nat} {restA : List (Nat × List Nat)}
    (hinv : ESInv d st ret []) (hact : st.active = (top, tasks) :: restA) :
    ESInv d { st with active := restA, cycles := max top st.cycles } ret tasks := by
  rcases hinv with ⟨h1, h2, h3, h4, h5, h6, h7, h8⟩
  refine ⟨h1, h2, h3, h4, ?_, ?_, h7, h8⟩
  · have h5b := h5
    rw [hact] at h5b
    simp only [bucketIds, List.map_cons, List.flatten_cons] at h5b ⊢
    simpa [List.append_assoc] using h5b
  · intro p hp
    rcases h6 p hp with hin | hle
    · rw [hact] at hin
      simp only [List.map_cons, List.mem_cons] at hin
      rcases hin with heq | hin
      · right
        rw [heq]
        exact Nat.le_max_left _ _
      · left
        exact hin
    · right
      exact Nat.le_trans hle (Nat.le_max_right _ _)

/-- Retiring one pending task moves it to `ret` and preserves the
invariant: its users' counters are bumped and the crossing users enter the
free buckets. -/
theorem esRetire_step {d : Dag} {rank : Nat → Nat} (hok : DagOk d rank)
    (costs : List Nat) {st : ESState} {ret P : List Nat} {t : Nat}
    (hinv : ESInv d st ret (t :: P)) :
    ESInv d (retireTask d costs st t) (ret ++ [t]) P := by
  rcases hinv with ⟨h1, h2, h3, h4, h5, h6, h7, h8⟩
  rcases retireTask_go d costs (d.users t) st (retireTask d costs st t) rfl h7 h8
    with ⟨np, g1, g2, g3, g4, g5, g6, g7, g8, g9, g10, g11⟩
  have hres_nd : st.res.Nodup := h2.of_append_left
  have htres : t ∈ st.res := by
    refine h5.mem_iff.mp ?_
    exact List.mem_append_left _ (List.mem_append_right _ (List.mem_cons_self _ _))
  have htn : t < d.n := ((h3 t).mp (List.mem_append_left _ htres)).1
  have htret : t ∉ ret := by
    have hndL := h5.nodup_iff.mpr hres_nd
    have := hndL.of_append_left
    rcases List.nodup_append.mp this with ⟨-, -, hdisj⟩
    intro hc
    exact hdisj hc (List.mem_cons_self _ _)
  have hcnt := count_users_sources hok
  have hrngU := hok.2.2.2.1
  -- the new counter value counts arrivals from `ret ++ [t]`
  have hdn2 : ∀ u, st.done u + (d.users t).count u
      = ((d.sources u).filter (fun w => decide (w ∈ ret ++ [t]))).length := by
    intro u
    rw [h1 u, filter_mem_insert ret t htret (d.sources u), hcnt u t]
  have hcross : ∀ u, u ∈ np ↔
      (¬ ∀ w ∈ d.sources u, w ∈ ret) ∧ (∀ w ∈ d.sources u, w ∈ ret ++ [t]) := by
    intro u
    rw [g8 u]
    constructor
    · rintro ⟨hlt, hge⟩
      have hle := List.length_filter_le (fun w => decide (w ∈ ret ++ [t])) (d.sources u)
      have hdu := hdn2 u
      have heq : ((d.sources u).filter (fun w => decide (w ∈ ret ++ [t]))).length
          = (d.sources u).length := by
        omega
      refine ⟨?_, ?_⟩
      · intro hall
        rw [h1 u] at hlt
        rw [filter_mem_all (by intro x hx; exact hall x hx)] at hlt
        omega
      · intro w hw
        have := (filter_len_eq_iff _ (d.sources u)).mp heq w hw
        simpa using this
    · rintro ⟨hnall, hall⟩
      have heq : ((d.sources u).filter (fun w => decide (w ∈ ret ++ [t]))).length
          = (d.sources u).length :=
        filter_mem_all hall
      constructor
      · rw [h1 u]
        push_neg at hnall
        rcases hnall with ⟨w, hwmem, hwE⟩
        exact filter_mem_lt hwmem hwE
      · rw [hdn2 u, heq]
  have hfresh : ∀ u ∈ np, u ∉ st.res ++ st.freeIds := by
    intro u hu hmem2
    rcases (hcross u).mp hu with ⟨hnall, -⟩
    exact hnall ((h3 u).mp hmem2).2
  have hnpn : ∀ u ∈ np, u < d.n := by
    intro u hu
    rcases (g8 u).mp hu with ⟨hlt, hge⟩
    have hcnt0 : 0 < (d.users t).count u := by omega
    exact hrngU t (List.mem_range.mpr htn) u (List.count_pos_iff.mp hcnt0)
  have hperm : ((retireTask d costs st t).res ++ (retireTask d costs st t).freeIds).Perm
      ((st.res ++ st.freeIds) ++ np) := by
    rw [g1]
    refine (g7.append_left st.res).trans ?_
    rw [← List.append_assoc]
  refine ⟨?_, ?_, ?_, ?_, ?_, ?_, g10, g11⟩
  · intro u
    rw [g6 u]
    exact hdn2 u
  · rw [hperm.nodup_iff, List.nodup_append]
    exact ⟨h2, g9, fun a ha hb => hfresh a hb ha⟩
  · intro u
    rw [hperm.mem_iff]
    constructor
    · intro hu
      rcases List.mem_append.mp hu with hu | hu
      · rcases (h3 u).mp hu with ⟨hun, hall⟩
        exact ⟨hun, fun w hw => List.mem_append_left _ (hall w hw)⟩
      · rcases (hcross u).mp hu with ⟨-, hall⟩
        exact ⟨hnpn u hu, hall⟩
    · rintro ⟨hun, hall⟩
      by_cases hE : ∀ w ∈ d.sources u, w ∈ ret
      · exact List.mem_append_left _ ((h3 u).mpr ⟨hun, hE⟩)
      · exact List.mem_append_right _ ((hcross u).mpr ⟨hE, hall⟩)
  · intro p s u hsplit
    rw [g1] at hsplit
    exact h4 p s u hsplit
  · rw [g1, g3]
    refine List.Perm.trans ?_ h5
    refine (Multiset.coe_eq_coe).mp ?_
    push_cast [← Multiset.coe_add]
    have hcons : (t :: P) = [t] ++ P := rfl
    rw [hcons]
    push_cast [← Multiset.coe_add]
    ac_rfl
  · intro p hp
    rw [g4, g5] at hp
    rw [g3, g2]
    exact h6 p hp

/-- Retiring a whole pending bucket. -/
theorem esRetireFold {d : Dag} {rank : Nat → Nat} (hok : DagOk d rank)
    (costs : List Nat) : ∀ (tasks : List Nat) (st : ESState) (ret : List Nat),
    ESInv d st ret tasks →
    ESInv d (tasks.foldl (retireTask d costs) st) (ret ++ tasks) [] ∧
    (tasks.foldl (retireTask d costs) st).res = st.res ∧
    (tasks.foldl (retireTask d costs) st).active = st.active := by
  intro tasks
  induction tasks with
  | nil =>
    intro st ret hinv
    rw [List.foldl_nil]
    exact ⟨by simpa using hinv, rfl, rfl⟩
  | cons t P ih =>
    intro st ret hinv
    have hstep := esRetire_step hok costs hinv
    have h7 := hinv.2.2.2.2.2.2.1
    have h8 := hinv.2.2.2.2.2.2.2
    rcases retireTask_go d costs (d.users t) st (retireTask d costs st t) rfl h7 h8
      with ⟨np, g1, g2, g3, -⟩
    rw [List.foldl_cons]
    rcases ih (retireTask d costs st t) (ret ++ [t]) hstep with ⟨hinv2, hres, hact⟩
    refine ⟨?_, ?_, ?_⟩
    · rw [List.append_cons]
      exact hinv2
    · rw [hres, g1]
    · rw [hact, g3]

/-- A successful dispatch preserves the loop invariant and appends the
dispatched task to `res`. -/
theorem esDispatch_step {d : Dag} {costs : List Nat} {st st2 : ESState}
    {ret : List Nat} {l : List Operation} {t : Nat}
    (hinv : ESInv d st ret []) (h : dispatchGo costs st l = (some t, st2)) :
    ESInv d st2 ret [] ∧ st2.res = st.res ++ [t] ∧
    st2.active.length ≤ st.active.length + 1 := by
  rcases dispatchGo_some costs l st st2 t h with
    ⟨op, k, v, f0, f1, f2, f3, f4, f5, f6, f7, f8, f9⟩
  rcases hinv with ⟨h1, h2, h3, h4, h5, h6, h7, h8⟩
  have hkv : (k, v) ∈ st.free op := List.mem_of_getLast?_eq_some f1
  have hvne : v ≠ [] := h7 op (k, v) hkv
  have htv : t ∈ v := by
    rw [f2, List.getLastD_eq_getLast?, List.getLast?_eq_getLast v hvne]
    exact List.getLast_mem hvne
  have htfree : t ∈ st.freeIds := bucketIds_subset_freeIds st op t (mem_bucketIds hkv htv)
  have hpop := popLastBucket_spec f1 hvne
  rw [← f2] at hpop
  have hupd := @freeIds_updateFree st st2 op (popLastBucket (st.free op)) f6
  rw [hpop] at hupd
  have hids : (st2.freeIds ++ [t]).Perm st.freeIds :=
    perm_pull_last (x := bucketIds (popLastBucket (st.free op))) hupd
  have hperm : (st2.res ++ st2.freeIds).Perm (st.res ++ st.freeIds) := by
    rw [f3]
    refine List.Perm.trans ?_ (hids.append_left st.res)
    refine (Multiset.coe_eq_coe).mp ?_
    push_cast [← Multiset.coe_add]
    ac_rfl
  have hretres : ret ⊆ st.res := by
    intro x hx
    exact h5.mem_iff.mp (List.mem_append_left _ (List.mem_append_left _ hx))
  refine ⟨⟨?_, ?_, ?_, ?_, ?_, ?_, ?_, ?_⟩, f3, ?_⟩
  · intro u
    rw [f8]
    exact h1 u
  · exact hperm.nodup_iff.mpr h2
  · intro u
    rw [hperm.mem_iff]
    exact h3 u
  · intro p s u hsplit
    rw [f3] at hsplit
    rcases split_append_singleton hsplit with ⟨hp, hu, -⟩ | ⟨s2, hres2, -⟩
    · subst hp; subst hu
      intro w hw
      have hts : ∀ w ∈ d.sources u, w ∈ ret :=
        ((h3 u).mp (List.mem_append_right _ htfree)).2
      exact hretres (hts w hw)
    · exact h4 p s2 u hres2
  · rw [f4, f3]
    refine List.Perm.trans
      ((bucketIds_bInsert st.active (st.cycles + getCost op) t).append_left (ret ++ [])) ?_
    rw [← List.append_assoc]
    exact h5.append_right [t]
  · intro p hp
    rcases f9 p hp with hp2 | hp2
    · rcases h6 p hp2 with hin | hle
      · left
        rw [f4]
        exact bInsert_keys_mono _ _ _ _ hin
      · right
        rw [f5]
        exact hle
    · left
      rw [hp2, f4]
      exact bInsert_key_mem _ _ _
  · intro op' b hb
    have he := congrFun f6 op'
    rw [he, updateFree] at hb
    by_cases ho : op' = op
    · rw [if_pos ho] at hb
      exact popLastBucket_nonempty (h7 op) b hb
    · rw [if_neg ho] at hb
      exact h7 op' b hb
  · intro op' hne
    have he := congrFun f6 op'
    rw [he, updateFree] at hne
    rw [f7]
    by_cases ho : op' = op
    · rw [if_pos ho] at hne
      rw [ho]
      exact h8 op (popLastBucket_ne_nil hne)
    · rw [if_neg ho] at hne
      exact h8 op' hne
  · rw [f4]
    exact bInsert_length _ _ _

/-- The `efficient_sort` main loop: under the invariant and with enough
fuel, it runs to a state with empty `active` and empty buckets and returns
its `res`. -/
theorem esLoop_spec {d : Dag} {rank : Nat → Nat} (hok : DagOk d rank)
    (costs : List Nat) (oracle : Nat → List Operation) :
    ∀ (fuel iter : Nat) (st : ESState) (ret : List Nat),
      ESInv d st ret [] →
      2 * (d.n - st.res.length) + st.active.length < fuel →
      ∃ st2 ret2, esLoop d costs oracle iter st fuel = st2.res ∧
        ESInv d st2 ret2 [] ∧ st2.active = [] ∧ st2.freeIds = [] := by
  intro fuel
  induction fuel with
  | zero =>
    intro iter st ret hinv hm
    omega
  | succ fuel ih =>
    intro iter st ret hinv hm
    rw [esLoop]
    by_cases hstop : (st.active.isEmpty && st.freeKeys.isEmpty) = true
    · rw [if_pos hstop]
      simp only [Bool.and_eq_true] at hstop
      rcases hstop with ⟨ha, hb⟩
      have hae : st.active = [] := List.isEmpty_iff.mp ha
      have hke : st.freeKeys = [] := List.isEmpty_iff.mp hb
      have hfree0 : ∀ op, st.free op = [] := by
        intro op
        by_contra hne
        have := hinv.2.2.2.2.2.2.2 op hne
        rw [hke] at this
        simp at this
      have hfe : st.freeIds = [] := by
        simp [ESState.freeIds, hfree0, bucketIds]
      exact ⟨st, ret, rfl, hinv, hae, hfe⟩
    · rw [if_neg hstop]
      rcases hdp : dispatchGo costs st (canonOps (oracle iter)) with ⟨o, stD⟩
      cases o with
      | some t =>
        rcases esDispatch_step hinv hdp with ⟨hinv2, hres2, hact2⟩
        have hlen2 : stD.res.length ≤ d.n := esInv_res_le hinv2
        have hlen3 : stD.res.length = st.res.length + 1 := by
          rw [hres2]; simp
        have hm2 : 2 * (d.n - stD.res.length) + stD.active.length < fuel := by
          omega
        rcases ih (iter + 1) stD ret hinv2 hm2 with ⟨st2, ret2, heq, hrest⟩
        refine ⟨st2, ret2, ?_, hrest⟩
        simp only [hdp]
        exact heq
      | none =>
        rcases dispatchGo_none costs _ st stD hdp with ⟨e1, e2, e3, e4, e5, e6, q1, q2⟩
        have hinvD : ESInv d stD ret [] := esDispatchNone_step hinv hdp
        rcases hact : stD.active with _ | ⟨⟨top, tasks⟩, restA⟩
        · have hae : st.active = [] := by
            rw [← e2]; exact hact
          have hq : ∀ p ∈ st.matQ ++ st.scaQ, p.2 ≤ st.cycles := by
            intro p hp
            rcases hinv.2.2.2.2.2.1 p hp with hin | hle
            · rw [hae] at hin
              simp at hin
            · exact hle
          have hfree0 : ∀ op, st.free op = [] := by
            intro op
            by_cases hk : op ∈ st.freeKeys
            · exact dispatchGo_none_empty costs _ st stD hdp hq op
                (canonOps_complete _ op) hk
            · by_contra hne
              exact hk (hinv.2.2.2.2.2.2.2 op hne)
          have hfeD : stD.freeIds = [] := by
            have he : ∀ op, stD.free op = [] := by
              intro op
              rw [congrFun e4 op]
              exact hfree0 op
            simp [ESState.freeIds, he, bucketIds]
          refine ⟨stD, ret, ?_, hinvD, hact, hfeD⟩
          simp only [hdp, hact]
        · have hinvP : ESInv d
              { stD with active := restA, cycles := max top stD.cycles } ret tasks :=
            esPop_step hinvD hact
          rcases esRetireFold hok costs tasks
              { stD with active := restA, cycles := max top stD.cycles } ret hinvP
            with ⟨hinvR, hresR, hactR⟩
          have hresEq : (tasks.foldl (retireTask d costs)
              { stD with active := restA, cycles := max top stD.cycles }).res
              = stD.res := hresR
          have hactEq : (tasks.foldl (retireTask d costs)
              { stD with active := restA, cycles := max top stD.cycles }).active
              = restA := hactR
          have hlenA : st.active.length = restA.length + 1 := by
            rw [← e2, hact]; simp
          have hm2 : 2 * (d.n - (tasks.foldl (retireTask d costs)
              { stD with active := restA, cycles := max top stD.cycles }).res.length)
              + (tasks.foldl (retireTask d costs)
                { stD with active := restA, cycles := max top stD.cycles }).active.length
              < fuel := by
            rw [hresEq, hactEq, e1]
            omega
          rcases ih (iter + 1) _ (ret ++ tasks) hinvR hm2
            with ⟨st2, ret2, heq, h2a, h2b, h2c⟩
          refine ⟨st2, ret2, ?_, h2a, h2b, h2c⟩
          simp only [hdp, hact]
          exact heq

/-- The initial state of `efficient_sort` satisfies the loop invariant. -/
theorem esInv_init {d : Dag} {rank : Nat → Nat} (hok : DagOk d rank) :
    ESInv d
      { res := d.inputs, cycles := 0,
        active := if d.inputs.isEmpty then [] else [(0, d.inputs)],
        matQ := [], scaQ := [], free := fun _ => [], freeKeys := [],
        done := fun _ => 0 } [] [] := by
  have hinp := hok.2.2.2.2.2.1
  have hsrc_nil : ∀ u ∈ d.inputs, d.sources u = [] := by
    intro u hu
    rw [hinp] at hu
    rcases List.mem_filter.mp hu with ⟨-, hemp⟩
    exact List.isEmpty_iff.mp (by simpa using hemp)
  refine ⟨?_, ?_, ?_, ?_, ?_, ?_, ?_, ?_⟩
  · intro u
    simp
  · show (d.inputs ++ _).Nodup
    have hfe : (ESState.freeIds
        { res := d.inputs, cycles := 0,
          active := if d.inputs.isEmpty then [] else [(0, d.inputs)],
          matQ := [], scaQ := [], free := fun _ => [], freeKeys := [],
          done := fun _ => 0 }) = [] := rfl
    rw [hfe, List.append_nil, hinp]
    exact (List.nodup_range d.n).filter _
  · intro u
    show u ∈ d.inputs ++ _ ↔ _
    have hfe : (ESState.freeIds
        { res := d.inputs, cycles := 0,
          active := if d.inputs.isEmpty then [] else [(0, d.inputs)],
          matQ := [], scaQ := [], free := fun _ => [], freeKeys := [],
          done := fun _ => 0 }) = [] := rfl
    rw [hfe, List.append_nil, hinp]
    simp only [List.mem_filter, List.mem_range]
    constructor
    · rintro ⟨hun, hemp⟩
      refine ⟨hun, ?_⟩
      intro v hv
      have hnil : d.sources u = [] := List.isEmpty_iff.mp (by simpa using hemp)
      rw [hnil] at hv
      simp at hv
    · rintro ⟨hun, hall⟩
      refine ⟨hun, ?_⟩
      have hnil : d.sources u = [] := by
        rcases hd : d.sources u with _ | ⟨v, rest⟩
        · rfl
        · have := hall v (by rw [hd]; exact List.mem_cons_self _ _)
          simp at this
      simp [hnil]
  · intro p s u hsplit
    intro v hv
    have hsplit2 : d.inputs = p ++ u :: s := hsplit
    have hu : u ∈ d.inputs := by
      rw [hsplit2]
      exact List.mem_append_right _ (List.mem_cons_self _ _)
    rw [hsrc_nil u hu] at hv
    simp at hv
  · show ([] ++ [] ++ bucketIds (if d.inputs.isEmpty then [] else [(0, d.inputs)])).Perm
      d.inputs
    by_cases hie : d.inputs.isEmpty
    · rw [if_pos hie, List.isEmpty_iff.mp hie]
      simp [bucketIds]
    · rw [if_neg hie]
      simp [bucketIds]
  · intro p hp
    simp at hp
  · intro op b hb
    simp at hb
  · intro op hne
    simp at hne

/-- `Dag::efficient_sort` (any iteration-order oracle): a duplicate-free
permutation of `0..n` whose every prefix contains the sources of the next
element. -/
theorem efficientSort_spec {d : Dag} {rank : Nat → Nat} (hok : DagOk d rank)
    (oracle : Nat → List Operation) :
    (efficientSort oracle d).Perm (List.range d.n) ∧
    (∀ p s u, efficientSort oracle d = p ++ u :: s → ∀ v ∈ d.sources u, v ∈ p) := by
  have hinit := esInv_init hok
  have hm : 2 * (d.n - d.inputs.length)
      + (if d.inputs.isEmpty then ([] : List (Nat × List Nat))
          else [(0, d.inputs)]).length < 2 * d.n + 2 := by
    have hal : (if d.inputs.isEmpty then ([] : List (Nat × List Nat))
        else [(0, d.inputs)]).length ≤ 1 := by
      by_cases h : d.inputs.isEmpty <;> simp [h]
    omega
  rcases esLoop_spec hok (getCosts d) oracle (2 * d.n + 2) 0
      { res := d.inputs, cycles := 0,
        active := if d.inputs.isEmpty then [] else [(0, d.inputs)],
        matQ := [], scaQ := [], free := fun _ => [], freeKeys := [],
        done := fun _ => 0 } [] hinit hm
    with ⟨st2, ret2, heq, hinv2, hact2, hfe2⟩
  have heq2 : efficientSort oracle d = st2.res := heq
  rcases hinv2 with ⟨h1, h2, h3, h4, h5, h6, h7, h8⟩
  have hretperm : ret2.Perm st2.res := by
    have h5b := h5
    rw [hact2] at h5b
    simpa [bucketIds] using h5b
  have hnd : st2.res.Nodup := h2.of_append_left
  have hmem : ∀ u, u ∈ st2.res ↔ (u < d.n ∧ ∀ v ∈ d.sources u, v ∈ ret2) := by
    intro u
    have h3b := h3 u
    rw [hfe2, List.append_nil] at h3b
    exact h3b
  have hcomp : ∀ k u, rank u < k → u < d.n → u ∈ st2.res := by
    intro k
    induction k with
    | zero => intro u h; omega
    | succ k ihk =>
      intro u hru hun
      refine (hmem u).mpr ⟨hun, ?_⟩
      intro v hv
      have hvn : v < d.n := hok.2.2.2.2.1 u (List.mem_range.mpr hun) v hv
      have hvu : u ∈ d.users v := sources_mem_users hok hv
      have hlt : rank v < rank u := hok.2.2.2.2.2.2.2 v (List.mem_range.mpr hvn) u hvu
      exact hretperm.mem_iff.mpr (ihk v (by omega) hvn)
  have hperm : st2.res.Perm (List.range d.n) := by
    rw [List.perm_ext_iff_of_nodup hnd (List.nodup_range d.n)]
    intro u
    rw [List.mem_range]
    constructor
    · intro hu
      exact ((hmem u).mp hu).1
    · intro hu
      exact hcomp (rank u + 1) u (by omega) hu
  constructor
  · rw [heq2]
    exact hperm
  · intro p s u hsplit
    rw [heq2] at hsplit
    exact h4 p s u hsplit

/-- C1: for every well-formed acyclic DAG, the order component returned by
`baseline_execute` and by `optimal_execute` (under every `HashMap`
iteration-order oracle) is a permutation of `0..n` in which every edge's
source index precedes its target index. -/
theorem c1_orders_topological {d : Dag} {rank : Nat → Nat} (hok : DagOk d rank) :
    ((baselineExecute d).2.Perm (List.range d.n) ∧
      ∀ v ∈ List.range d.n, ∀ u ∈ d.users v,
        (baselineExecute d).2.indexOf v < (baselineExecute d).2.indexOf u) ∧
    (∀ oracle : Nat → List Operation,
      (optimalExecute oracle d).2.Perm (List.range d.n) ∧
      ∀ v ∈ List.range d.n, ∀ u ∈ d.users v,
        (optimalExecute oracle d).2.indexOf v < (optimalExecute oracle d).2.indexOf u) := by
  constructor
  · have hb : (baselineExecute d).2 = (topSort d).flatten := rfl
    rcases topSort_spec hok with ⟨hp, hs⟩
    rw [hb]
    exact ⟨hp, topo_indexOf hok hp hs⟩
  · intro oracle
    have ho : (optimalExecute oracle d).2 = efficientSort oracle d := rfl
    rcases efficientSort_spec hok oracle with ⟨hp, hs⟩
    rw [ho]
    exact ⟨hp, topo_indexOf hok hp hs⟩

theorem c1_orders_topological_witness :
    DagOk c6dag (fun u => u) ∧
    (((baselineExecute c6dag).2.Perm (List.range c6dag.n) ∧
      ∀ v ∈ List.range c6dag.n, ∀ u ∈ c6dag.users v,
        (baselineExecute c6dag).2.indexOf v < (baselineExecute c6dag).2.indexOf u) ∧
    (∀ oracle : Nat → List Operation,
      (optimalExecute oracle c6dag).2.Perm (List.range c6dag.n) ∧
      ∀ v ∈ List.range c6dag.n, ∀ u ∈ c6dag.users v,
        (optimalExecute oracle c6dag).2.indexOf v
          < (optimalExecute oracle c6dag).2.indexOf u)) :=
  ⟨by unfold DagOk; decide, @c1_orders_topological c6dag (fun u => u)
    (by unfold DagOk; decide)⟩

/-- Under every oracle, `efficient_sort` on the S2 DAG returns `[0, 1]`:
it is a duplicate-free topological order of the two nodes and node 1
depends on node 0. -/
theorem efficientSort_c6dag (oracle : Nat → List Operation) :
    efficientSort oracle c6dag = [0, 1] := by
  rcases @efficientSort_spec c6dag (fun u => u)
      (by unfold DagOk; decide) oracle
    with ⟨hp, hs⟩
  have hn : c6dag.n = 2 := by decide
  rw [hn] at hp
  have hlen : (efficientSort oracle c6dag).length = 2 := by
    have := hp.length_eq
    simpa using this
  rcases List.length_eq_two.mp hlen with ⟨a, b, hab⟩
  have h0 : (0 : Nat) ∈ efficientSort oracle c6dag := hp.mem_iff.mpr (by decide)
  have h1 : (1 : Nat) ∈ efficientSort oracle c6dag := hp.mem_iff.mpr (by decide)
  rw [hab] at h0 h1
  simp at h0 h1
  have hnot : a ≠ 1 := by
    intro ha
    have hsp := hs [] [b] a (by rw [hab]; rfl)
    rw [ha] at hsp
    have h01 : (0 : Nat) ∈ c6dag.sources 1 := by decide
    have := hsp 0 h01
    simp at this
  have hb1 : b = 1 := by
    rcases h1 with h1 | h1
    · exact absurd (by omega : a = 1) hnot
    · omega
  have ha0 : a = 0 := by
    rcases h0 with h0 | h0
    · omega
    · omega
  rw [hab, ha0, hb1]

/-- C6 (amended): on scenario S2 (two nodes, input feeding one `VScaMul`),
both `baseline_execute` and `optimal_execute` report modeled time 3, not
2: the input node's own instruction costs one transfer, the consumer's
pre-move costs another, and the dispatch costs 1. -/
theorem c6_both_report_time_three :
    (baselineExecute c6dag).1 = 3 ∧
    ∀ oracle : Nat → List Operation, (optimalExecute oracle c6dag).1 = 3 := by
  refine ⟨by decide, ?_⟩
  intro oracle
  have hoe : optimalExecute oracle c6dag
      = (execTime c6dag
          (regallocRun
            ((efficientSort oracle c6dag).map (fun id => (id, (c6dag.op id).map chipOf)))
            (fun id => c6dag.sources id)
            (fun id => (c6dag.users id).map
              (fun u => (efficientSort oracle c6dag).indexOf u)))
          AragoSpec.start, efficientSort oracle c6dag) := rfl
  rw [hoe, efficientSort_c6dag oracle]
  decide

end Arago
